import Mathlib

/-!
Verification development for the `godeps` dependency-identity tool
(`src/godeps.py`).  The Python source is shallowly embedded below:
pure functions become Lean functions, fallible code returns
`Except String`, Python's `Optional[str]` becomes `Option String`,
and the line/character manipulations of the source are modelled over
`List Char` (`String.data`).
-/

namespace Godeps

/-! ## Basic helpers for Python string semantics -/

/-- Truthiness of a Python `Optional[str]`: `None` and `""` are falsy. -/
def optTruthy : Option String → Bool
  | none => false
  | some s => !(s == "")

/-- Whitespace characters recognised by Python's `str.split()` (ASCII subset). -/
def isPyWs (c : Char) : Bool :=
  c = ' ' || c = '\t' || c = '\n' || c = '\r' || c = '\x0b' || c = '\x0c'

/-- Helper for `pySplitWs`: accumulates the current (reversed) token. -/
def splitWsGo : List Char → List Char → List (List Char)
  | [], cur => if cur.isEmpty then [] else [cur.reverse]
  | c :: cs, cur =>
    if isPyWs c then
      if cur.isEmpty then splitWsGo cs [] else cur.reverse :: splitWsGo cs []
    else
      splitWsGo cs (c :: cur)

/-- Python `str.split()` with no argument: maximal runs of non-whitespace. -/
def pySplitWs (s : String) : List String :=
  (splitWsGo s.data []).map String.mk

/-- Python `str.splitlines()` for newline-terminated text: split at `'\n'`,
with no trailing empty piece for a trailing newline. -/
def splitLinesChars : List Char → List (List Char)
  | [] => []
  | c :: cs =>
    if c = '\n' then [] :: splitLinesChars cs
    else
      match splitLinesChars cs with
      | [] => [[c]]
      | l :: ls => (c :: l) :: ls

/-- Python `str.splitlines()` on a `String`. -/
def pySplitlines (s : String) : List String :=
  (splitLinesChars s.data).map String.mk

/-- Boolean string-starts-with, via the underlying character lists. -/
def startsWithS (s p : String) : Bool :=
  List.isPrefixOf p.data s.data

/-- Python `str.removeprefix`: drop `p` from the front of `s` when present. -/
def removeFront (s p : String) : String :=
  if List.isPrefixOf p.data s.data then String.mk (s.data.drop p.data.length) else s

/-! ## Data model: `Module` and `NameVersion` (`godeps.py` lines 37-62)

`Module` is self-referential through its `replace` field, so it is an
inductive rather than a structure. -/

/-- A Go module as returned by the `-json` option of various commands
(`class Module`): `path`, optional `version`, optional `replace`, `main`. -/
inductive Module : Type where
  | mk (path : String) (version : Option String) (replace : Option Module) (main : Bool)

/-- The `path` field of a `Module`. -/
def Module.path : Module → String
  | .mk p _ _ _ => p

/-- The `version` field of a `Module`. -/
def Module.version : Module → Option String
  | .mk _ v _ _ => v

/-- The `replace` field of a `Module`. -/
def Module.replace : Module → Option Module
  | .mk _ _ r _ => r

/-- The `main` field of a `Module`. -/
def Module.main : Module → Bool
  | .mk _ _ _ m => m

/-- A name and version of a package/module (`class NameVersion(NamedTuple)`).
The tuple type itself carries no invariant, exactly as a `NamedTuple`. -/
structure NameVersion where
  name : String
  version : String
deriving DecidableEq, BEq

/-- Display form `name@version` (`NameVersion.__str__`). -/
def NameVersion.str (nv : NameVersion) : String :=
  nv.name ++ "@" ++ nv.version

/-- `NameVersion.from_module`: resolve a module reference to its identity.
Mirrors the source: no replacement uses `(path, version)`; a replacement with
truthy version uses `(replace.path, replace.version)`; otherwise
`(path, replace.path)`; a falsy resulting version raises `ValueError`. -/
def NameVersion.from_module (m : Module) : Except String NameVersion :=
  let nv : String × Option String :=
    match m.replace with
    | none => (m.path, m.version)
    | some rep =>
      if optTruthy rep.version then (rep.path, rep.version)
      else (m.path, some rep.path)
  if optTruthy nv.2 then .ok ⟨nv.1, nv.2.getD ""⟩
  else .error ("versionless module: " ++ m.path)

/-- Strict lexicographic comparison of character lists by code point,
Python's string `<`. -/
def listLtB : List Char → List Char → Bool
  | [], [] => false
  | [], _ :: _ => true
  | _ :: _, [] => false
  | a :: as, b :: bs => Nat.blt a.toNat b.toNat || (a.toNat == b.toNat && listLtB as bs)

/-- Python string `<` (code-point lexicographic). -/
def strLtB (s t : String) : Bool := listLtB s.data t.data

/-- Python string `<=`. -/
def strLeB (s t : String) : Bool := strLtB s t || s == t

/-- `strLeB` as a relation, for use with `List.insertionSort`. -/
def strLe (s t : String) : Prop := strLeB s t = true

instance : DecidableRel strLe := fun s t => by
  unfold strLe
  infer_instance

/-- Lexicographic order on `NameVersion` (Python tuple comparison), as a
Boolean. -/
def NameVersion.lePairB (a b : NameVersion) : Bool :=
  strLtB a.name b.name || (a.name == b.name && strLeB a.version b.version)

/-- `NameVersion.lePairB` as a relation. -/
def NameVersion.lePair (a b : NameVersion) : Prop :=
  NameVersion.lePairB a b = true

instance : DecidableRel NameVersion.lePair := fun a b => by
  unfold NameVersion.lePair
  infer_instance

/-- Resolve a list of modules in order, propagating the first failure
(the evaluation order of the Python set comprehension). -/
def resolveAll : List Module → Except String (List NameVersion)
  | [] => .ok []
  | m :: ms => do
    let nv ← NameVersion.from_module m
    let nvs ← resolveAll ms
    .ok (nv :: nvs)

/-- `get_names_and_versions`: drop main modules, resolve the rest, and return
the deduplicated identities in sorted order (`sorted({...})`). -/
def get_names_and_versions (modules : List Module) : Except String (List NameVersion) := do
  let nvs ← resolveAll (modules.filter fun m => !m.main)
  .ok (List.insertionSort NameVersion.lePair nvs.eraseDups)

/-! ## Vendor manifest parser (`GomodResolver.parse_vendor`, lines 147-200) -/

/-- `parse_module_line`: parse one `"# "`-header of `vendor/modules.txt`.
The token shapes and their order mirror the Python `match` statement. -/
def parse_module_line (line : String) : Except String Module :=
  match pySplitWs (removeFront line "# ") with
  | [name] => .ok (Module.mk name none none true)
  | [name, version] => .ok (Module.mk name (some version) none false)
  | [name, "=>", path] =>
    .ok (Module.mk name none (some (Module.mk path none none false)) false)
  | [name, version, "=>", path] =>
    .ok (Module.mk name (some version) (some (Module.mk path none none false)) false)
  | [name, "=>", new_name, new_version] =>
    .ok (Module.mk name none (some (Module.mk new_name (some new_version) none false)) false)
  | [name, version, "=>", new_name, new_version] =>
    .ok (Module.mk name (some version) (some (Module.mk new_name (some new_version) none false)) false)
  | _ => .error ("unrecognized module line: " ++ line)

/-- The scanning loop of `parse_vendor`: walk the manifest lines, collecting
`(module, has_packages)` pairs.  `acc` holds the pairs seen so far in reverse;
a package line sets the flag of the most recent module. -/
def scanVendorLines : List String → List (Module × Bool) → Except String (List (Module × Bool))
  | [], acc => .ok acc.reverse
  | line :: rest, acc =>
    if startsWithS line "# " then
      match parse_module_line line with
      | .error e => .error e
      | .ok m => scanVendorLines rest ((m, false) :: acc)
    else if !startsWithS line "#" then
      match acc with
      | [] => .error ("no module line found above " ++ line)
      | (m, _) :: tl => scanVendorLines rest ((m, true) :: tl)
    else if !startsWithS line "## explicit" then
      .error ("unrecognized line in modules.txt: " ++ line)
    else
      scanVendorLines rest acc

/-- `is_wildcard_replacement`: the module has a replacement and its own
version is falsy (this is the original module's version, not the
replacement's). -/
def is_wildcard_replacement (m : Module) : Bool :=
  m.replace.isSome && !(optTruthy m.version)

/-- The final list comprehension of `parse_vendor`: keep a module unless it is
main, a wildcard replacement, or (when `drop_unused`) has no packages. -/
def vendorKeep (drop_unused : Bool) (p : Module × Bool) : Bool :=
  !p.1.main && !(is_wildcard_replacement p.1) && (p.2 || !drop_unused)

/-- The scan stage of `parse_vendor` applied to a manifest text. -/
def parseVendorPairs (text : String) : Except String (List (Module × Bool)) :=
  scanVendorLines (pySplitlines text) []

/-- `GomodResolver.parse_vendor`, with the manifest text passed in place of
the `vendor/modules.txt` file read. -/
def parse_vendor (text : String) (drop_unused : Bool) : Except String (List Module) := do
  let pairs ← parseVendorPairs text
  .ok (((pairs.filter (vendorKeep drop_unused))).map Prod.fst)

/-- `parse_vendor` composed with `get_names_and_versions`, as done by
`_check_vendor`. -/
def vendorIdentities (text : String) (drop_unused : Bool) : Except String (List NameVersion) := do
  let modules ← parse_vendor text drop_unused
  get_names_and_versions modules

/-! ## Helper lemmas -/

theorem isPrefixOf_cons_elim {a : Char} {as cs : List Char}
    (h : List.isPrefixOf (a :: as) cs = true) :
    ∃ tl, cs = a :: tl ∧ List.isPrefixOf as tl = true := by
  cases cs with
  | nil => simp [List.isPrefixOf] at h
  | cons b tl =>
    have h' : (a == b && List.isPrefixOf as tl) = true := h
    rcases Bool.and_eq_true_iff.mp h' with ⟨hab, hpre⟩
    exact ⟨tl, by rw [eq_of_beq hab], hpre⟩

/-- A line with the `"## explicit"` prefix starts with `"#"` but not `"# "`. -/
theorem explicitMarker_shape (l : String) (h : startsWithS l "## explicit" = true) :
    startsWithS l "# " = false ∧ startsWithS l "#" = true := by
  unfold startsWithS at h ⊢
  have e : ("## explicit".data) =
      '#' :: '#' :: ' ' :: 'e' :: 'x' :: 'p' :: 'l' :: 'i' :: 'c' :: 'i' :: 't' :: [] := rfl
  rw [e] at h
  rcases isPrefixOf_cons_elim h with ⟨t1, e1, h1⟩
  rcases isPrefixOf_cons_elim h1 with ⟨t2, e2, _⟩
  subst e2
  rw [e1]
  constructor
  · show (('#' == '#') && ((' ' == '#') && List.isPrefixOf [] t2)) = false
    simp [List.isPrefixOf]
  · show (('#' == '#') && List.isPrefixOf [] ('#' :: t2)) = true
    simp [List.isPrefixOf]

/-- Not starting with `"#"` implies not starting with `"# "`. -/
theorem not_hash_not_header (l : String) (h : startsWithS l "#" = false) :
    startsWithS l "# " = false := by
  unfold startsWithS at h ⊢
  by_contra hc
  rw [Bool.not_eq_false] at hc
  have e : ("# ".data) = '#' :: ' ' :: [] := rfl
  rw [e] at hc
  rcases isPrefixOf_cons_elim hc with ⟨t1, e1, _⟩
  have : List.isPrefixOf ("#".data) l.data = true := by
    rw [show ("#".data) = ['#'] from rfl, e1]
    show (('#' == '#') && List.isPrefixOf [] t1) = true
    simp [List.isPrefixOf]
  rw [this] at h
  exact Bool.true_eq_false.mp h

/-! ## Claim C1: the identity resolver -/

/-- C1 (counterexample): the claim states that for every reference with a
versionless replacement, `resolve(r) = (r.path, replacement.path)`.  For the
concrete reference with `path = "a"` and a versionless replacement whose path
is the empty string, `from_module` raises `ValueError` instead of returning
`("a", "")`, so the claim as stated is false. -/
theorem c1_resolver_counterexample :
    NameVersion.from_module (Module.mk "a" none (some (Module.mk "" none none false)) false) ≠
      Except.ok ⟨"a", ""⟩ := by
  have h : NameVersion.from_module
      (Module.mk "a" none (some (Module.mk "" none none false)) false) =
      Except.error "versionless module: a" := rfl
  rw [h]
  simp

/-- C1 (amended): the identity resolver, with the versionless-replacement
clause restricted to non-empty replacement paths.  For a reference with no
replacement, resolution returns `(path, version)` and fails iff the version is
falsy; a replacement with a truthy version fully supersedes the original
coordinate; a versionless replacement yields `(path, replacement.path)` when
the replacement path is non-empty and fails when it is empty. -/
theorem c1_resolver_amended (m rep : Module) :
    (m.replace = none → optTruthy m.version = true →
        NameVersion.from_module m = .ok ⟨m.path, m.version.getD ""⟩) ∧
    (m.replace = none → optTruthy m.version = false →
        (NameVersion.from_module m).isOk = false) ∧
    (m.replace = some rep → optTruthy rep.version = true →
        NameVersion.from_module m = .ok ⟨rep.path, rep.version.getD ""⟩) ∧
    (m.replace = some rep → optTruthy rep.version = false → rep.path ≠ "" →
        NameVersion.from_module m = .ok ⟨m.path, rep.path⟩) ∧
    (m.replace = some rep → optTruthy rep.version = false → rep.path = "" →
        (NameVersion.from_module m).isOk = false) := by
  obtain ⟨p, v, r, mn⟩ := m
  obtain ⟨q, w, r2, mn2⟩ := rep
  refine ⟨?_, ?_, ?_, ?_, ?_⟩ <;> intro h1 h2 <;>
    simp only [Module.replace] at h1 <;> subst h1 <;>
    simp only [Module.version, Module.path] at h2 ⊢ <;>
    unfold NameVersion.from_module <;>
    simp only [Module.replace, Module.version, Module.path]
  · simp [h2]
  · simp [h2, Except.isOk, Except.toBool]
  · simp [h2]
  · intro h3
    simp only [h2, Bool.false_eq_true, if_false]
    simp [optTruthy, h3]
  · intro h3
    simp only [h2, Bool.false_eq_true, if_false]
    simp [optTruthy, h3, Except.isOk, Except.toBool]

/-- C1 (witness): the amended versionless-replacement clause at a concrete
reference. -/
theorem c1_resolver_amended_witness :
    NameVersion.from_module
      (Module.mk "a" (some "v1") (some (Module.mk "b" none none false)) false) =
      .ok ⟨"a", "b"⟩ :=
  (c1_resolver_amended (Module.mk "a" (some "v1") (some (Module.mk "b" none none false)) false)
    (Module.mk "b" none none false)).2.2.2.1 rfl rfl (by decide)

/-! ## Claim C9: the `NameVersion` invariant -/

/-- C9 (counterexample): `NameVersion` is a plain named tuple with no
validation, so an identity with an empty version is constructible; the claim
that every existing identity value has a non-empty version is false at the
concrete value `("x", "")`. -/
theorem c9_invariant_counterexample : (NameVersion.mk "x" "").version = "" := rfl

/-- The final `if` of `from_module` only returns an identity whose version is
non-empty. -/
theorem fromModule_core_version (x : String × Option String) (e : String)
    (nv : NameVersion)
    (h : (if optTruthy x.2 then Except.ok ⟨x.1, x.2.getD ""⟩
          else Except.error e) = .ok nv) :
    nv.version ≠ "" := by
  obtain ⟨a, o⟩ := x
  cases o with
  | none => simp [optTruthy] at h
  | some s =>
    by_cases hs : s = ""
    · subst hs
      simp [optTruthy] at h
    · simp only [optTruthy, Option.getD_some] at h
      rw [if_pos (by simp [hs])] at h
      rw [Except.ok.injEq] at h
      subst h
      simpa using hs

/-- C9 (amended): the tuple type itself performs no validation, but the
checked constructor `from_module` fails on a falsy version, so every identity
it produces has a non-empty version. -/
theorem c9_invariant_amended (m : Module) (nv : NameVersion)
    (h : NameVersion.from_module m = .ok nv) : nv.version ≠ "" := by
  unfold NameVersion.from_module at h
  exact fromModule_core_version _ _ _ h

/-- C9 (witness): the amended invariant at a concretely resolved module. -/
theorem c9_invariant_amended_witness : (⟨"a", "v1"⟩ : NameVersion).version ≠ "" :=
  c9_invariant_amended (Module.mk "a" (some "v1") none false) ⟨"a", "v1"⟩ rfl

/-! ## Claim C2: the vendor post-processing filter -/

/-- C2 (counterexample): the claim defines wildcard replacements by the
replacement's version and asserts that a shape-5 header
(`name "=>" newname newversion`) is kept and a shape-4 header
(`name version "=>" path`) is excluded.  The code tests the original
header's version instead: on the concrete manifest with the shape-5 header
`"# a => b v1.0.0"` and a package line, the module is excluded (empty
result), and on the manifest with the shape-4 header `"# a v1.0.0 => b"` and
a package line, the module is kept. -/
theorem c2_vendor_filter_counterexample :
    parse_vendor "# a => b v1.0.0\na/pkg\n" true = .ok [] ∧
    parse_vendor "# a v1.0.0 => b\na/pkg\n" true =
      .ok [Module.mk "a" (some "v1.0.0") (some (Module.mk "b" none none false)) false] :=
  ⟨rfl, rfl⟩

/-- The Boolean keep-condition of `parse_vendor`, re-expressed as the negation
of the amended exclusion conditions. -/
theorem vendorKeep_iff (d : Bool) (m : Module) (h : Bool) :
    vendorKeep d (m, h) = true ↔
      ¬ (m.main = true ∨ (m.replace ≠ none ∧ optTruthy m.version = false) ∨
         (d = true ∧ h = false)) := by
  unfold vendorKeep is_wildcard_replacement
  cases hm : m.main <;> cases ht : optTruthy m.version <;> cases hr : m.replace <;>
    cases d <;> cases h <;> simp [hm, ht, hr]

/-- C2 (amended): the post-processing filter excludes exactly: headers with
`isMain`; wildcard replacements, defined as replacement present with version
absent (falsy) on the **original** header — i.e. shapes 3 and 5 — so a
shape-5 header is excluded and a shape-4 header with packages is kept; and,
when `dropUnused` is true, headers with `hasPackages = false`. -/
theorem c2_vendor_filter_amended (text : String) (d : Bool)
    (pairs : List (Module × Bool)) (ms : List Module)
    (hscan : parseVendorPairs text = .ok pairs)
    (hpv : parse_vendor text d = .ok ms) (m : Module) :
    m ∈ ms ↔ ∃ h : Bool, (m, h) ∈ pairs ∧
      ¬ (m.main = true ∨ (m.replace ≠ none ∧ optTruthy m.version = false) ∨
         (d = true ∧ h = false)) := by
  have hpe : parse_vendor text d = .ok ((pairs.filter (vendorKeep d)).map Prod.fst) := by
    unfold parse_vendor
    rw [hscan]
    rfl
  rw [hpe] at hpv
  injection hpv with hms
  subst hms
  constructor
  · intro hmem
    rcases List.mem_map.mp hmem with ⟨p, hp, hpm⟩
    obtain ⟨m1, hb⟩ := p
    cases hpm
    rcases List.mem_filter.mp hp with ⟨hppairs, hkeep⟩
    exact ⟨hb, hppairs, (vendorKeep_iff d m1 hb).mp hkeep⟩
  · rintro ⟨h, hmem, hcond⟩
    exact List.mem_map.mpr ⟨(m, h),
      List.mem_filter.mpr ⟨hmem, (vendorKeep_iff d m h).mpr hcond⟩, rfl⟩

/-- C2 (witness): the amended filter characterization at the concrete shape-4
manifest. -/
theorem c2_vendor_filter_amended_witness :
    (Module.mk "a" (some "v1.0.0") (some (Module.mk "b" none none false)) false) ∈
      [Module.mk "a" (some "v1.0.0") (some (Module.mk "b" none none false)) false] ↔
    ∃ h : Bool,
      ((Module.mk "a" (some "v1.0.0") (some (Module.mk "b" none none false)) false, h) ∈
        [(Module.mk "a" (some "v1.0.0") (some (Module.mk "b" none none false)) false, true)] ∧
      ¬ ((Module.mk "a" (some "v1.0.0") (some (Module.mk "b" none none false)) false).main = true ∨
         ((Module.mk "a" (some "v1.0.0") (some (Module.mk "b" none none false)) false).replace ≠ none ∧
          optTruthy (Module.mk "a" (some "v1.0.0") (some (Module.mk "b" none none false)) false).version = false) ∨
         (true = true ∧ h = false))) :=
  c2_vendor_filter_amended "# a v1.0.0 => b\na/pkg\n" true
    [(Module.mk "a" (some "v1.0.0") (some (Module.mk "b" none none false)) false, true)]
    [Module.mk "a" (some "v1.0.0") (some (Module.mk "b" none none false)) false]
    rfl rfl _

/-! ## Claim C4: end-to-end over the manifest parser plus resolver -/

/-- C4: on the concrete manifest the resolved identities (as the sorted,
deduplicated list that `get_names_and_versions` returns, here read as the
identity set) are `baz@v0` and `foo/bar@v1.2.3`; appending the header line
`"# qux v9"` with no following package line leaves `qux@v9` out when
`dropUnused = true` and includes it when `dropUnused = false`. -/
theorem c4_end_to_end :
    vendorIdentities "# foo/bar v1.2.3\nfoo/bar/pkg\n# baz v0\nbaz/internal\n" true =
      .ok [⟨"baz", "v0"⟩, ⟨"foo/bar", "v1.2.3"⟩] ∧
    vendorIdentities "# foo/bar v1.2.3\nfoo/bar/pkg\n# baz v0\nbaz/internal\n# qux v9\n" true =
      .ok [⟨"baz", "v0"⟩, ⟨"foo/bar", "v1.2.3"⟩] ∧
    vendorIdentities "# foo/bar v1.2.3\nfoo/bar/pkg\n# baz v0\nbaz/internal\n# qux v9\n" false =
      .ok [⟨"baz", "v0"⟩, ⟨"foo/bar", "v1.2.3"⟩, ⟨"qux", "v9"⟩] :=
  ⟨rfl, rfl, rfl⟩

/-! ## Claim C10: main references are filtered before resolution -/

/-- Unfolding of `resolveAll` on a cons cell. -/
theorem resolveAll_cons (m : Module) (l : List Module) :
    resolveAll (m :: l) = (NameVersion.from_module m).bind fun nv =>
      (resolveAll l).bind fun nvs => .ok (nv :: nvs) := rfl

/-- `resolveAll` fails exactly when some module in the list fails to
resolve. -/
theorem resolveAll_fails_iff (l : List Module) :
    (resolveAll l).isOk = false ↔
      ∃ m ∈ l, (NameVersion.from_module m).isOk = false := by
  induction l with
  | nil => simp [resolveAll, Except.isOk, Except.toBool]
  | cons m l ih =>
    rw [resolveAll_cons]
    cases h : NameVersion.from_module m with
    | error e =>
      simp only [Except.bind]
      constructor
      · intro _
        exact ⟨m, List.mem_cons_self m l, by simp [h, Except.isOk, Except.toBool]⟩
      · intro _
        simp [Except.isOk, Except.toBool]
    | ok nv =>
      simp only [Except.bind]
      cases h2 : resolveAll l with
      | error e2 =>
        simp only [Except.bind]
        constructor
        · intro _
          rcases ih.mp (by simp [h2, Except.isOk, Except.toBool]) with ⟨m', hm', hf⟩
          exact ⟨m', List.mem_cons_of_mem _ hm', hf⟩
        · intro _
          simp [Except.isOk, Except.toBool]
      | ok nvs =>
        simp only [Except.bind]
        constructor
        · intro hh
          simp [Except.isOk, Except.toBool] at hh
        · rintro ⟨m', hm', hf⟩
          rcases List.mem_cons.mp hm' with rfl | hm'
          · rw [h] at hf
            simp [Except.isOk, Except.toBool] at hf
          · have hfail : (resolveAll l).isOk = false := ih.mpr ⟨m', hm', hf⟩
            rw [h2] at hfail
            simp [Except.isOk, Except.toBool] at hfail

/-- C10: `get_names_and_versions` filters out `main` references before
resolving, so a main reference can never raise the versionless-module error:
the aggregate fails exactly when some non-main module fails to resolve. -/
theorem c10_aggregate_error (ms : List Module) :
    (get_names_and_versions ms).isOk = false ↔
      ∃ m ∈ ms, m.main = false ∧ (NameVersion.from_module m).isOk = false := by
  have hbind : (get_names_and_versions ms).isOk =
      (resolveAll (ms.filter fun m => !m.main)).isOk := by
    unfold get_names_and_versions
    cases h : resolveAll (ms.filter fun m => !m.main) <;> rfl
  rw [hbind, resolveAll_fails_iff]
  constructor
  · rintro ⟨m, hm, hf⟩
    rcases List.mem_filter.mp hm with ⟨hms, hmain⟩
    exact ⟨m, hms, by simpa using hmain, hf⟩
  · rintro ⟨m, hms, hmain, hf⟩
    exact ⟨m, List.mem_filter.mpr ⟨hms, by simp [hmain]⟩, hf⟩

/-! ## Claim C5: manifest grammar errors -/

/-- Unfolding of the scan loop on a cons cell. -/
theorem scanVendorLines_cons (line : String) (rest : List String)
    (acc : List (Module × Bool)) :
    scanVendorLines (line :: rest) acc =
      if startsWithS line "# " then
        match parse_module_line line with
        | .error e => .error e
        | .ok m => scanVendorLines rest ((m, false) :: acc)
      else if !startsWithS line "#" then
        match acc with
        | [] => .error ("no module line found above " ++ line)
        | (m, _) :: tl => scanVendorLines rest ((m, true) :: tl)
      else if !startsWithS line "## explicit" then
        .error ("unrecognized line in modules.txt: " ++ line)
      else
        scanVendorLines rest acc := rfl

/-- A package line with no preceding module header makes the scan fail. -/
theorem scan_pkg_before_header (pre : List String) (l : String) (rest : List String)
    (hpre : ∀ p ∈ pre, startsWithS p "# " = false)
    (hl : startsWithS l "#" = false) :
    (scanVendorLines (pre ++ l :: rest) []).isOk = false := by
  induction pre with
  | nil =>
    simp only [List.nil_append]
    rw [scanVendorLines_cons]
    rw [not_hash_not_header l hl, hl]
    simp [Except.isOk, Except.toBool]
  | cons p pre ih =>
    have hp := hpre p (List.mem_cons_self _ _)
    have hpre' : ∀ q ∈ pre, startsWithS q "# " = false := fun q hq =>
      hpre q (List.mem_cons_of_mem _ hq)
    simp only [List.cons_append]
    rw [scanVendorLines_cons]
    rw [hp]
    by_cases hph : startsWithS p "#" = true
    · rw [hph]
      by_cases hpe : startsWithS p "## explicit" = true
      · rw [hpe]
        simpa using ih hpre'
      · rw [Bool.not_eq_true] at hpe
        rw [hpe]
        simp [Except.isOk, Except.toBool]
    · rw [Bool.not_eq_true] at hph
      rw [hph]
      simp [Except.isOk, Except.toBool]

/-- A line that starts with `"#"`, is not an `"## explicit"` marker, and is
not a parseable `"# "` header, makes the scan fail from any state; so does
any other failure on the way. -/
theorem scan_bad_hash_line (lines : List String) :
    ∀ acc, (∃ l ∈ lines,
      startsWithS l "#" = true ∧ startsWithS l "## explicit" = false ∧
      (startsWithS l "# " = true → (parse_module_line l).isOk = false)) →
    (scanVendorLines lines acc).isOk = false := by
  induction lines with
  | nil => rintro acc ⟨l, hl, _⟩; simp at hl
  | cons x lines ih =>
    rintro acc ⟨l, hl, hbad⟩
    rcases List.mem_cons.mp hl with rfl | hm
    · obtain ⟨hb1, hb2, hb3⟩ := hbad
      rw [scanVendorLines_cons]
      by_cases hh : startsWithS l "# " = true
      · have hperr := hb3 hh
        rw [hh]
        cases hp : parse_module_line l with
        | error e => simp [Except.isOk, Except.toBool]
        | ok m =>
          rw [hp] at hperr
          simp [Except.isOk, Except.toBool] at hperr
      · rw [Bool.not_eq_true] at hh
        rw [hh, hb1, hb2]
        simp [Except.isOk, Except.toBool]
    · rw [scanVendorLines_cons]
      by_cases h1 : startsWithS x "# " = true
      · rw [h1]
        cases hp : parse_module_line x with
        | error e => simp [Except.isOk, Except.toBool]
        | ok m => simpa using ih _ ⟨l, hm, hbad⟩
      · rw [Bool.not_eq_true] at h1
        rw [h1]
        by_cases h2 : startsWithS x "#" = true
        · rw [h2]
          by_cases h3 : startsWithS x "## explicit" = true
          · rw [h3]
            simpa using ih _ ⟨l, hm, hbad⟩
          · rw [Bool.not_eq_true] at h3
            rw [h3]
            simp [Except.isOk, Except.toBool]
        · rw [Bool.not_eq_true] at h2
          rw [h2]
          cases acc with
          | nil => simp [Except.isOk, Except.toBool]
          | cons a tl => simpa using ih _ ⟨l, hm, hbad⟩

/-- `parse_vendor` fails whenever the scan stage fails. -/
theorem parse_vendor_isOk_eq (text : String) (d : Bool) :
    (parse_vendor text d).isOk = (parseVendorPairs text).isOk := by
  unfold parse_vendor
  cases h : parseVendorPairs text <;> rfl

/-- C5: the vendor parser rejects a package line with no preceding module
header; rejects every `"#"`-line that is neither a parseable `"# "` header
nor an `"## explicit"`-prefixed marker; and accepts-and-ignores lines with
the `"## explicit"` prefix. -/
theorem c5_grammar_errors :
    (∀ text d pre l rest,
      pySplitlines text = pre ++ l :: rest →
      (∀ p ∈ pre, startsWithS p "# " = false) →
      startsWithS l "#" = false →
      (parse_vendor text d).isOk = false) ∧
    (∀ text d l,
      l ∈ pySplitlines text →
      startsWithS l "#" = true →
      startsWithS l "## explicit" = false →
      (startsWithS l "# " = true → (parse_module_line l).isOk = false) →
      (parse_vendor text d).isOk = false) ∧
    (∀ l lines acc,
      startsWithS l "## explicit" = true →
      scanVendorLines (l :: lines) acc = scanVendorLines lines acc) := by
  refine ⟨?_, ?_, ?_⟩
  · intro text d pre l rest hsplit hpre hl
    rw [parse_vendor_isOk_eq]
    unfold parseVendorPairs
    rw [hsplit]
    exact scan_pkg_before_header pre l rest hpre hl
  · intro text d l hmem h1 h2 h3
    rw [parse_vendor_isOk_eq]
    unfold parseVendorPairs
    exact scan_bad_hash_line _ _ ⟨l, hmem, h1, h2, h3⟩
  · intro l lines acc h
    obtain ⟨hns, hs⟩ := explicitMarker_shape l h
    rw [scanVendorLines_cons]
    rw [hns, hs, h]
    simp

/-- C5 (witness): the three grammar properties at concrete manifests. -/
theorem c5_grammar_errors_witness :
    (parse_vendor "pkg/line\n" true).isOk = false ∧
    (parse_vendor "# a v1\n#bad\n" true).isOk = false ∧
    scanVendorLines ["## explicit; marker", "# a v1"] [] =
      scanVendorLines ["# a v1"] [] :=
  ⟨c5_grammar_errors.1 "pkg/line\n" true [] "pkg/line" [] rfl (by simp) (by decide),
   c5_grammar_errors.2.1 "# a v1\n#bad\n" true "#bad" (by decide) (by decide) (by decide)
     (by decide),
   c5_grammar_errors.2.2 "## explicit; marker" ["# a v1"] [] (by decide)⟩

/-! ## Cache path decoder (`un_exclamation_mark`, lines 131-133) -/

/-- Python `str.split("!")`: split at every `'!'`, keeping empty pieces. -/
def pySplitBang : List Char → List (List Char)
  | [] => [[]]
  | c :: cs =>
    if c = '!' then [] :: pySplitBang cs
    else
      match pySplitBang cs with
      | [] => [[c]]
      | p :: ps => (c :: p) :: ps

/-- Python `str.capitalize` on a character list: first character uppercased,
the remainder lowercased. -/
def pyCapitalizeChars : List Char → List Char
  | [] => []
  | c :: cs => c.toUpper :: cs.map Char.toLower

/-- `un_exclamation_mark`: split on `"!"`, keep the first piece verbatim, and
append the remaining pieces capitalized. -/
def un_exclamation_mark (s : String) : String :=
  match pySplitBang s.data with
  | [] => ""
  | first :: rest => String.mk (first ++ (rest.map pyCapitalizeChars).flatten)

/-- ASCII uppercase letter test by code point. -/
def isUpperA (c : Char) : Bool := 65 ≤ c.toNat && c.toNat ≤ 90

/-- ASCII lowercase letter test by code point. -/
def isLowerA (c : Char) : Bool := 97 ≤ c.toNat && c.toNat ≤ 122

/-- ASCII letter test by code point. -/
def isAsciiLetter (c : Char) : Bool := isUpperA c || isLowerA c

/-- The escaping scheme of the module cache, as the specification defines it:
each uppercase letter becomes `'!'` followed by its lowercase form. -/
def encodeChars (cs : List Char) : List Char :=
  (cs.map fun c => if isUpperA c then ['!', c.toLower] else [c]).flatten

/-- The escaping scheme on a `String`. -/
def encodeUpper (s : String) : String := String.mk (encodeChars s.data)

/-! Character-level facts about `Char.toLower`/`Char.toUpper` on ASCII. -/

theorem char_toNat_ofNat_valid (n : Nat) (h : n < 55296) :
    (Char.ofNat n).toNat = n := by
  rw [Char.ofNat, dif_pos (Or.inl h)]
  rfl

theorem toLower_of_upperA (c : Char) (h : isUpperA c = true) :
    c.toLower = Char.ofNat (c.toNat + 32) := by
  rcases Bool.and_eq_true_iff.mp h with ⟨h1, h2⟩
  have h1' : 65 ≤ c.toNat := by exact of_decide_eq_true h1
  have h2' : c.toNat ≤ 90 := by exact of_decide_eq_true h2
  show (if c.toNat ≥ 65 ∧ c.toNat ≤ 90 then Char.ofNat (c.toNat + 32) else c) = _
  rw [if_pos ⟨h1', h2'⟩]

theorem toLower_toNat_of_upperA (c : Char) (h : isUpperA c = true) :
    (c.toLower).toNat = c.toNat + 32 := by
  rcases Bool.and_eq_true_iff.mp h with ⟨h1, h2⟩
  have h2' : c.toNat ≤ 90 := by exact of_decide_eq_true h2
  rw [toLower_of_upperA c h]
  exact char_toNat_ofNat_valid _ (by omega)

theorem toLower_isLowerA_of_upperA (c : Char) (h : isUpperA c = true) :
    isLowerA c.toLower = true := by
  rcases Bool.and_eq_true_iff.mp h with ⟨h1, h2⟩
  have h1' : 65 ≤ c.toNat := by exact of_decide_eq_true h1
  have h2' : c.toNat ≤ 90 := by exact of_decide_eq_true h2
  have ht := toLower_toNat_of_upperA c h
  unfold isLowerA
  rw [ht]
  simp only [Bool.and_eq_true, decide_eq_true_eq]
  omega

theorem toUpper_toLower_of_upperA (c : Char) (h : isUpperA c = true) :
    (c.toLower).toUpper = c := by
  rcases Bool.and_eq_true_iff.mp h with ⟨h1, h2⟩
  have h1' : 65 ≤ c.toNat := by exact of_decide_eq_true h1
  have h2' : c.toNat ≤ 90 := by exact of_decide_eq_true h2
  have ht := toLower_toNat_of_upperA c h
  show (if (c.toLower).toNat ≥ 97 ∧ (c.toLower).toNat ≤ 122 then
      Char.ofNat ((c.toLower).toNat - 32) else c.toLower) = c
  rw [if_pos (by omega)]
  rw [ht, Nat.add_sub_cancel]
  exact Char.ofNat_toNat c

theorem toLower_fix_of_lowerA (c : Char) (h : isLowerA c = true) :
    c.toLower = c := by
  rcases Bool.and_eq_true_iff.mp h with ⟨h1, _⟩
  have h1' : 97 ≤ c.toNat := by exact of_decide_eq_true h1
  show (if c.toNat ≥ 65 ∧ c.toNat ≤ 90 then Char.ofNat (c.toNat + 32) else c) = c
  rw [if_neg (by omega)]

theorem letter_ne_bang (c : Char) (h : isAsciiLetter c = true) : c ≠ '!' := by
  intro hc
  subst hc
  simp [isAsciiLetter, isUpperA, isLowerA] at h

theorem toLower_ne_bang_of_upperA (c : Char) (h : isUpperA c = true) :
    c.toLower ≠ '!' := by
  intro hc
  have ht := toLower_toNat_of_upperA c h
  rw [hc] at ht
  rcases Bool.and_eq_true_iff.mp h with ⟨h1, _⟩
  have h1' : 65 ≤ c.toNat := by exact of_decide_eq_true h1
  have : ('!').toNat = 33 := rfl
  omega

/-- `pySplitBang` always returns at least one piece. -/
theorem pySplitBang_ne_nil (cs : List Char) : pySplitBang cs ≠ [] := by
  induction cs with
  | nil => simp [pySplitBang]
  | cons c cs ih =>
    unfold pySplitBang
    by_cases hc : c = '!'
    · rw [if_pos hc]
      simp
    · rw [if_neg hc]
      cases hp : pySplitBang cs with
      | nil => simp
      | cons p ps => simp

/-- Decomposition of `pySplitBang` on a non-marker head. -/
theorem pySplitBang_cons_ne (c : Char) (cs : List Char) (hc : c ≠ '!')
    (p : List Char) (ps : List (List Char)) (hp : pySplitBang cs = p :: ps) :
    pySplitBang (c :: cs) = (c :: p) :: ps := by
  unfold pySplitBang
  rw [if_neg hc, hp]

/-- Core induction for C7: splitting the encoded text gives a first piece of
lowercase letters whose capitalized reassembly is the original text. -/
theorem decode_encode_aux (cs : List Char)
    (h : ∀ c ∈ cs, isAsciiLetter c = true) :
    ∃ f r, pySplitBang (encodeChars cs) = f :: r ∧
      (∀ x ∈ f, isLowerA x = true) ∧
      f ++ (r.map pyCapitalizeChars).flatten = cs := by
  induction cs with
  | nil => exact ⟨[], [], rfl, by simp, rfl⟩
  | cons c cs ih =>
    have hc := h c (List.mem_cons_self _ _)
    have h' : ∀ x ∈ cs, isAsciiLetter x = true := fun x hx =>
      h x (List.mem_cons_of_mem _ hx)
    rcases ih h' with ⟨f, r, hsplit, hlow, hval⟩
    by_cases hu : isUpperA c = true
    · have henc : encodeChars (c :: cs) = '!' :: c.toLower :: encodeChars cs := by
        simp [encodeChars, hu]
      refine ⟨[], (c.toLower :: f) :: r, ?_, by simp, ?_⟩
      · rw [henc]
        rw [show pySplitBang ('!' :: c.toLower :: encodeChars cs) =
            [] :: pySplitBang (c.toLower :: encodeChars cs) from rfl]
        rw [pySplitBang_cons_ne _ _ (toLower_ne_bang_of_upperA c hu) f r hsplit]
      · have hcap : pyCapitalizeChars (c.toLower :: f) = c :: f := by
          show c.toLower.toUpper :: f.map Char.toLower = c :: f
          rw [toUpper_toLower_of_upperA c hu]
          congr 1
          rw [show f.map Char.toLower = f.map id from
            List.map_congr_left fun x hx => toLower_fix_of_lowerA x (hlow x hx)]
          exact List.map_id f
        simp only [List.map_cons, List.flatten_cons, List.nil_append, hcap]
        rw [List.cons_append, hval]
    · have hl : isLowerA c = true := by
        rcases Bool.or_eq_true_iff.mp hc with h1 | h1
        · exact absurd h1 hu
        · exact h1
      have henc : encodeChars (c :: cs) = c :: encodeChars cs := by
        simp [encodeChars, hu]
      refine ⟨c :: f, r, ?_, ?_, ?_⟩
      · rw [henc]
        exact pySplitBang_cons_ne _ _ (letter_ne_bang c hc) f r hsplit
      · intro x hx
        rcases List.mem_cons.mp hx with rfl | hx
        · exact hl
        · exact hlow x hx
      · rw [List.cons_append, hval]

/-- C7: `un_exclamation_mark` is a left inverse of the escaping scheme on
letters-only strings: decoding the encoding of any string of ASCII letters
returns the original string. -/
theorem c7_decode_left_inverse (s : String)
    (h : ∀ c ∈ s.data, isAsciiLetter c = true) :
    un_exclamation_mark (encodeUpper s) = s := by
  rcases decode_encode_aux s.data h with ⟨f, r, hsplit, _, hval⟩
  unfold un_exclamation_mark encodeUpper
  rw [show (String.mk (encodeChars s.data)).data = encodeChars s.data from rfl, hsplit]
  show String.mk (f ++ (r.map pyCapitalizeChars).flatten) = s
  rw [hval]

/-- C7 (witness): decode after encode at a concrete mixed-case string. -/
theorem c7_decode_left_inverse_witness :
    un_exclamation_mark (encodeUpper "AbC") = "AbC" :=
  c7_decode_left_inverse "AbC" (by decide)

/-! ## Vendor tree reconciler (`_diff_vendor_modules`, lines 323-346)

The on-disk vendor tree is modelled as a mutual inductive of entries
(files/directories) and child lists; paths relative to the vendor root are
segment lists. -/

mutual
/-- A filesystem entry: a regular file or a directory with children. -/
inductive FsEntry : Type where
  | file (name : String)
  | dir (name : String) (children : FsList)
/-- A list of filesystem entries (a directory listing). -/
inductive FsList : Type where
  | nil
  | cons (e : FsEntry) (es : FsList)
end

/-- `any(child_path.is_file() for child_path in child_paths)`: does the
listing directly contain a regular file? -/
def FsList.anyFile : FsList → Bool
  | .nil => false
  | .cons e es => (match e with | .file _ => true | .dir _ _ => false) || es.anyFile

/-- `Path.is_relative_to`: `base` is a segment-wise ancestor-or-self of `p`. -/
def isRelTo (p base : List String) : Bool := List.isPrefixOf base p

mutual
/-- `find_unknown_vendor_dirs` on one child entry of a directory whose
relative path is `relpath`: files yield nothing (the source recurses only
into directories); a directory is skipped when covered by a known path,
reported when it directly contains a file, and recursed into otherwise. -/
def unknownDirsEntry (idf : List (List String)) (relpath : List String)
    (e : FsEntry) : List (List String) :=
  match e with
  | .file _ => []
  | .dir n cs =>
    let rp := relpath ++ [n]
    if idf.any (fun known => isRelTo rp known) then []
    else if cs.anyFile then [rp]
    else unknownDirsList idf rp cs
termination_by structural e

/-- `find_unknown_vendor_dirs` over a directory listing. -/
def unknownDirsList (idf : List (List String)) (relpath : List String)
    (es : FsList) : List (List String) :=
  match es with
  | .nil => []
  | .cons e es2 => unknownDirsEntry idf relpath e ++ unknownDirsList idf relpath es2
termination_by structural es
end

mutual
/-- `Path.exists` for a relative segment path, against one entry. -/
def existsEntry (e : FsEntry) (p : List String) : Bool :=
  match e, p with
  | .file m, n :: r => m == n && r.isEmpty
  | .dir m cs, n :: r => m == n && (r.isEmpty || existsList cs r)
  | _, [] => false
termination_by structural e

/-- `Path.exists` for a relative segment path, against a directory listing. -/
def existsList (es : FsList) (p : List String) : Bool :=
  match es, p with
  | .nil, _ => false
  | .cons e es2, q => existsEntry e q || existsList es2 q
termination_by structural es
end

/-- Split a character list at `'/'`, keeping empty pieces. -/
def splitOnSlash : List Char → List (List Char)
  | [] => [[]]
  | c :: cs =>
    if c = '/' then [] :: splitOnSlash cs
    else
      match splitOnSlash cs with
      | [] => [[c]]
      | p :: ps => (c :: p) :: ps

/-- `Path(name)` for a module path: its slash-separated segments. -/
def splitSlash (s : String) : List String := (splitOnSlash s.data).map String.mk

/-- Posix rendering of a segment path. -/
def joinSlash : List String → String
  | [] => ""
  | [p] => p
  | p :: ps => p ++ "/" ++ joinSlash ps

/-- `identified_vendor_dirs = {Path(module_name) for module_name, _ in
vendor_modules}`. -/
def identifiedVendorDirs (vendor_modules : List NameVersion) : List (List String) :=
  vendor_modules.map fun nv => splitSlash nv.name

/-- `actual_vendor_dirs` of `_diff_vendor_modules`: the identified paths that
exist under the vendor root, together with the unknown directories discovered
by recursing from the top-level directories. -/
def actualVendorDirs (identified : List (List String)) (root : FsList) :
    List (List String) :=
  (identified.filter fun p => existsList root p) ++ unknownDirsList identified [] root

/-- C6: for `knownModulePaths = {"a/b"}` and a vendor tree with regular files
at `a/b/x.go` and `c/d/y.go`, the computed set of actual module-sized
directories is exactly `{a/b, c/d}`: the declared existing path plus the
undeclared directory that directly contains a file. -/
theorem c6_reconciler_concrete :
    actualVendorDirs [["a", "b"]]
      (.cons (.dir "a" (.cons (.dir "b" (.cons (.file "x.go") .nil)) .nil))
        (.cons (.dir "c" (.cons (.dir "d" (.cons (.file "y.go") .nil)) .nil)) .nil)) =
      [["a", "b"], ["c", "d"]] ∧
    (actualVendorDirs [["a", "b"]]
      (.cons (.dir "a" (.cons (.dir "b" (.cons (.file "x.go") .nil)) .nil))
        (.cons (.dir "c" (.cons (.dir "d" (.cons (.file "y.go") .nil)) .nil)) .nil))).map
      joinSlash = ["a/b", "c/d"] :=
  ⟨rfl, rfl⟩

/-! ## Diff engine (`_get_diff`, lines 319-320)

`difflib.unified_diff` is Python standard library, not part of this
repository; it is modelled from the specification's contract: both inputs are
sorted before comparison and the output is a unified-diff-style text, empty
exactly when the sorted sequences are equal. -/

theorem char_toNat_inj {a b : Char} (h : a.toNat = b.toNat) : a = b := by
  have h2 := congrArg Char.ofNat h
  rwa [Char.ofNat_toNat, Char.ofNat_toNat] at h2

theorem natBltFalse {x y : Nat} (h : ¬ x < y) : Nat.blt x y = false :=
  Bool.eq_false_iff.mpr fun hc => h (by rwa [Nat.blt_eq] at hc)

theorem natBeqFalse {x y : Nat} (h : x ≠ y) : (x == y) = false :=
  Bool.eq_false_iff.mpr fun hc => h (by rwa [Nat.beq_eq_true_eq] at hc)

theorem natBltFalseElim {x y : Nat} (h : Nat.blt x y = false) : ¬ x < y := by
  intro hc
  rw [Bool.eq_false_iff] at h
  exact h (by rw [Nat.blt_eq]; exact hc)

theorem natBeqFalseElim {x y : Nat} (h : (x == y) = false) : x ≠ y := by
  intro hc
  rw [Bool.eq_false_iff] at h
  exact h (by rw [Nat.beq_eq_true_eq]; exact hc)

theorem listLtB_asymm : ∀ as bs : List Char,
    listLtB as bs = true → listLtB bs as = false
  | [], [], h => by simp [listLtB] at h
  | [], _ :: _, _ => by simp [listLtB]
  | _ :: _, [], h => by simp [listLtB] at h
  | a :: as, b :: bs, h => by
    simp only [listLtB, Bool.or_eq_true, Bool.and_eq_true, Nat.blt_eq,
      Nat.beq_eq_true_eq] at h
    rcases h with h | ⟨he, h⟩
    · have h1 : Nat.blt b.toNat a.toNat = false := natBltFalse (by omega)
      have h2 : (b.toNat == a.toNat) = false := natBeqFalse (by omega)
      simp [listLtB, h1, h2]
    · have h1 : Nat.blt b.toNat a.toNat = false := natBltFalse (by omega)
      have h2 := listLtB_asymm as bs h
      simp [listLtB, h1, h2]

theorem listLtB_trans : ∀ as bs cs : List Char,
    listLtB as bs = true → listLtB bs cs = true → listLtB as cs = true
  | [], _, _ :: _, _, _ => by simp [listLtB]
  | [], [], [], h, _ => by simp [listLtB] at h
  | [], _ :: _, [], _, h2 => by simp [listLtB] at h2
  | _ :: _, [], _, h, _ => by simp [listLtB] at h
  | _ :: _, _ :: _, [], _, h2 => by simp [listLtB] at h2
  | a :: as, b :: bs, c :: cs, h1, h2 => by
    simp only [listLtB, Bool.or_eq_true, Bool.and_eq_true, Nat.blt_eq,
      Nat.beq_eq_true_eq] at h1 h2 ⊢
    rcases h1 with h1 | ⟨e1, h1⟩ <;> rcases h2 with h2 | ⟨e2, h2⟩
    · exact Or.inl (by omega)
    · exact Or.inl (by omega)
    · exact Or.inl (by omega)
    · exact Or.inr ⟨by omega, listLtB_trans as bs cs h1 h2⟩

theorem listLtB_connex : ∀ as bs : List Char,
    listLtB as bs = false → listLtB bs as = false → as = bs
  | [], [], _, _ => rfl
  | [], _ :: _, h, _ => by simp [listLtB] at h
  | _ :: _, [], _, h2 => by simp [listLtB] at h2
  | a :: as, b :: bs, h, h2 => by
    simp only [listLtB, Bool.or_eq_false_iff, Bool.and_eq_false_iff] at h h2
    rcases h with ⟨hlt, heq⟩
    rcases h2 with ⟨hlt2, heq2⟩
    have hab : a.toNat = b.toNat := by
      have e1 := natBltFalseElim hlt
      have e2 := natBltFalseElim hlt2
      omega
    have hchar : a = b := char_toNat_inj hab
    subst hchar
    rcases heq with he | hr
    · exact absurd rfl (natBeqFalseElim he)
    · rcases heq2 with he2 | hr2
      · exact absurd rfl (natBeqFalseElim he2)
      · rw [listLtB_connex as bs hr hr2]

theorem strLe_total (s t : String) : strLe s t ∨ strLe t s := by
  unfold strLe strLeB strLtB
  by_cases h1 : listLtB s.data t.data = true
  · left
    simp [h1]
  · by_cases h2 : listLtB t.data s.data = true
    · right
      simp [h2]
    · left
      have he : s.data = t.data :=
        listLtB_connex _ _ ((Bool.not_eq_true _).mp h1) ((Bool.not_eq_true _).mp h2)
      have hst : s = t := by
        cases s
        cases t
        exact congrArg String.mk he
      simp [hst]

theorem strLe_trans_thm (a b c : String) (h1 : strLe a b) (h2 : strLe b c) :
    strLe a c := by
  unfold strLe strLeB strLtB at h1 h2 ⊢
  simp only [Bool.or_eq_true, beq_iff_eq] at h1 h2 ⊢
  rcases h1 with h1 | rfl
  · rcases h2 with h2 | rfl
    · exact Or.inl (listLtB_trans _ _ _ h1 h2)
    · exact Or.inl h1
  · rcases h2 with h2 | rfl
    · exact Or.inl h2
    · exact Or.inr rfl

theorem strLe_antisymm_thm (a b : String) (h1 : strLe a b) (h2 : strLe b a) :
    a = b := by
  unfold strLe strLeB strLtB at h1 h2
  simp only [Bool.or_eq_true, beq_iff_eq] at h1 h2
  rcases h1 with h1 | rfl
  · rcases h2 with h2 | rfl
    · have := listLtB_asymm _ _ h1
      rw [this] at h2
      exact absurd h2 (by simp)
    · rfl
  · rfl

instance : IsTotal String strLe := ⟨strLe_total⟩

instance : IsTrans String strLe := ⟨strLe_trans_thm⟩

instance : IsAntisymm String strLe := ⟨strLe_antisymm_thm⟩

/-- Modelled from the spec: `difflib.unified_diff` (Python standard library,
outside this repository) as used here — it yields no lines when the two
sequences are equal, and otherwise yields the two file-header lines, a hunk
header, and removal/addition-tagged lines. -/
def unified_diff (a b : List String) : List String :=
  if a = b then []
  else "--- expected" :: "+++ actual" :: "@@" ::
    (a.map (fun l => "-" ++ l) ++ b.map (fun l => "+" ++ l))

/-- Join lines with `"\n"` (Python `"\n".join`), at the character level. -/
def joinNlChars : List (List Char) → List Char
  | [] => []
  | [l] => l
  | l :: ls => l ++ '\n' :: joinNlChars ls

/-- Python `"\n".join` on strings. -/
def joinNl (ls : List String) : String := String.mk (joinNlChars (ls.map String.data))

/-- `_get_diff`: sort both iterables and join the unified diff lines. -/
def get_diff (left right : List String) : String :=
  joinNl (unified_diff (List.insertionSort strLe left) (List.insertionSort strLe right))

/-- `_get_diff` applied to two sets of strings (Python sets modelled as
`Finset String`, presented to `_get_diff` in sorted order). -/
def diffSets (S T : Finset String) : String :=
  get_diff (Finset.sort strLe S) (Finset.sort strLe T)

/-- The joined diff output is non-empty: it starts with the header line. -/
theorem joinNl_header_ne (xs : List String) : joinNl ("--- expected" :: xs) ≠ "" := by
  cases xs with
  | nil =>
    intro h
    have hd := congrArg String.data h
    simp only [joinNl, joinNlChars, List.map] at hd
    simp at hd
  | cons y ys =>
    intro h
    have hd := congrArg String.data h
    simp only [joinNl, joinNlChars, List.map] at hd
    simp at hd

/-- Sorting the elements of a `Finset` determines it. -/
theorem sort_inj_of_eq {S T : Finset String}
    (h : Finset.sort strLe S = Finset.sort strLe T) : S = T := by
  have h2 := congrArg List.toFinset h
  rwa [Finset.sort_toFinset, Finset.sort_toFinset] at h2

/-- C8: the diff engine reports no difference exactly on equal sets:
`diff(S, S) = ""` for every set of strings `S`, and `diff(S, T)` is non-empty
iff `S ≠ T`. -/
theorem c8_diff_engine :
    (∀ S : Finset String, diffSets S S = "") ∧
    (∀ S T : Finset String, diffSets S T ≠ "" ↔ S ≠ T) := by
  have hsorted : ∀ S : Finset String,
      List.insertionSort strLe (Finset.sort strLe S) = Finset.sort strLe S :=
    fun S => List.Sorted.insertionSort_eq (Finset.sort_sorted strLe S)
  constructor
  · intro S
    unfold diffSets get_diff unified_diff
    rw [if_pos rfl]
    rfl
  · intro S T
    unfold diffSets get_diff
    rw [hsorted S, hsorted T]
    by_cases hST : S = T
    · subst hST
      unfold unified_diff
      rw [if_pos rfl]
      simp [joinNl, joinNlChars]
    · have hs : Finset.sort strLe S ≠ Finset.sort strLe T := fun hc =>
        hST (sort_inj_of_eq hc)
      unfold unified_diff
      rw [if_neg hs]
      constructor
      · intro _
        exact hST
      · intro _
        exact joinNl_header_ne _

/-! ## JSON stream decoder (`_load_json_stream`, lines 215-222)

Modelled from the spec: the per-value decoder (`json.JSONDecoder.raw_decode`,
Python standard library, outside this repository) is modelled as a parser of
standard JSON value syntax at the exact current offset, with no leading
whitespace skipping at the top level (the documented `raw_decode` behavior);
numbers are modelled as integers and objects as ordered field lists.  The
stream loop itself (`i = j + 1`, i.e. skip exactly one character after each
value, while the offset is in range) is translated from the source.  The
recursion is bounded by a fuel argument that the input length amply covers. -/

/-- JSON whitespace characters. -/
def isJsonWs (c : Char) : Bool := c = ' ' || c = '\t' || c = '\n' || c = '\r'

/-- Skip leading JSON whitespace. -/
def skipWs : List Char → List Char
  | [] => []
  | c :: cs => if isJsonWs c then skipWs cs else c :: cs

/-- A decoded JSON value. -/
inductive Json : Type where
  | null
  | bool (b : Bool)
  | num (n : Int)
  | str (s : String)
  | arr (elems : List Json)
  | obj (fields : List (String × Json))

/-- Decimal digit test. -/
def isDigitC (c : Char) : Bool :=
  c = '0' || c = '1' || c = '2' || c = '3' || c = '4' ||
  c = '5' || c = '6' || c = '7' || c = '8' || c = '9'

/-- Named string escapes. -/
def escChar : Char → Option Char
  | '"' => some '"'
  | '\\' => some '\\'
  | '/' => some '/'
  | 'b' => some '\x08'
  | 'f' => some '\x0c'
  | 'n' => some '\n'
  | 'r' => some '\r'
  | 't' => some '\t'
  | _ => none

/-- Hexadecimal digit value. -/
def hexVal (c : Char) : Option Nat :=
  if 48 ≤ c.toNat ∧ c.toNat ≤ 57 then some (c.toNat - 48)
  else if 97 ≤ c.toNat ∧ c.toNat ≤ 102 then some (c.toNat - 87)
  else if 65 ≤ c.toNat ∧ c.toNat ≤ 70 then some (c.toNat - 55)
  else none

/-- Parse the body of a JSON string after the opening quote; returns the
decoded characters and the remaining input after the closing quote.  The
recursion is bounded by a fuel argument (one unit per consumed escape or
character; the input length plus one amply covers it). -/
def parseStringBody : Nat → List Char → Except String (List Char × List Char)
  | 0, _ => .error "Fuel exhausted"
  | _ + 1, [] => .error "Unterminated string"
  | fuel + 1, c :: cs =>
    if c = '"' then .ok ([], cs)
    else if c = '\\' then
      match cs with
      | 'u' :: h1 :: h2 :: h3 :: h4 :: cs2 =>
        (match hexVal h1, hexVal h2, hexVal h3, hexVal h4 with
         | some a, some b, some x, some d =>
           (parseStringBody fuel cs2).map fun r =>
             (Char.ofNat (((a * 16 + b) * 16 + x) * 16 + d) :: r.1, r.2)
         | _, _, _, _ => .error "Invalid unicode escape")
      | e :: cs2 =>
        (match escChar e with
         | some ec => (parseStringBody fuel cs2).map fun r => (ec :: r.1, r.2)
         | none => .error "Invalid escape")
      | [] => .error "Unterminated string"
    else if c.toNat < 32 then .error "Invalid control character"
    else (parseStringBody fuel cs).map fun r => (c :: r.1, r.2)

/-- Consume a maximal run of digits, accumulating the value. -/
def scanDigits : List Char → Nat → Nat × List Char
  | [], acc => (acc, [])
  | c :: cs, acc =>
    if isDigitC c then scanDigits cs (acc * 10 + (c.toNat - 48)) else (acc, c :: cs)

/-- Parse an unsigned JSON integer (grammar `0|[1-9][0-9]*`, longest match:
a leading `0` is the whole numeral). -/
def parseUnsignedNum : List Char → Except String (Nat × List Char)
  | [] => .error "Expecting value"
  | c :: cs =>
    if c = '0' then .ok (0, cs)
    else if isDigitC c then .ok (scanDigits cs (c.toNat - 48))
    else .error "Expecting value"

/-- Parse a JSON integer with optional leading minus. -/
def parseNumber (cs : List Char) : Except String (Json × List Char) :=
  match cs with
  | c :: cs2 =>
    if c = '-' then (parseUnsignedNum cs2).map fun r => (.num (-(r.1 : Int)), r.2)
    else (parseUnsignedNum cs).map fun r => (.num (r.1 : Int), r.2)
  | [] => .error "Expecting value"

mutual
/-- Parse one JSON value at the exact current position (no leading
whitespace allowed, as in `raw_decode`). -/
def parseValue : Nat → List Char → Except String (Json × List Char)
  | 0, _ => .error "Fuel exhausted"
  | fuel + 1, cs =>
    match cs with
    | [] => .error "Expecting value"
    | c :: rest =>
      if c = '{' then
        (if (skipWs rest).head? = some '}' then .ok (.obj [], (skipWs rest).tail)
         else (parseMembers fuel (skipWs rest)).map fun p => (.obj p.1, p.2))
      else if c = '[' then
        (if (skipWs rest).head? = some ']' then .ok (.arr [], (skipWs rest).tail)
         else (parseElems fuel (skipWs rest)).map fun p => (.arr p.1, p.2))
      else if c = '"' then
        (parseStringBody (rest.length + 1) rest).map fun p => (.str (String.mk p.1), p.2)
      else if c = 't' then
        (match rest with
         | 'r' :: 'u' :: 'e' :: r2 => .ok (.bool true, r2)
         | _ => .error "Expecting value")
      else if c = 'f' then
        (match rest with
         | 'a' :: 'l' :: 's' :: 'e' :: r2 => .ok (.bool false, r2)
         | _ => .error "Expecting value")
      else if c = 'n' then
        (match rest with
         | 'u' :: 'l' :: 'l' :: r2 => .ok (.null, r2)
         | _ => .error "Expecting value")
      else if c = '-' then parseNumber (c :: rest)
      else if isDigitC c then parseNumber (c :: rest)
      else .error "Expecting value"
termination_by structural fuel => fuel

/-- Parse one or more comma-separated array elements up to `]`. -/
def parseElems : Nat → List Char → Except String (List Json × List Char)
  | 0, _ => .error "Fuel exhausted"
  | fuel + 1, cs =>
    match parseValue fuel cs with
    | .error e => .error e
    | .ok (v, r) =>
      match skipWs r with
      | ',' :: r2 => (parseElems fuel (skipWs r2)).map fun p => (v :: p.1, p.2)
      | ']' :: r2 => .ok ([v], r2)
      | _ => .error "Expecting comma delimiter"
termination_by structural fuel => fuel

/-- Parse one or more comma-separated object members up to `}`. -/
def parseMembers : Nat → List Char → Except String (List (String × Json) × List Char)
  | 0, _ => .error "Fuel exhausted"
  | fuel + 1, cs =>
    match cs with
    | '"' :: rest =>
      (match parseStringBody (rest.length + 1) rest with
       | .error e => .error e
       | .ok (k, r) =>
         match skipWs r with
         | ':' :: r2 =>
           (match parseValue fuel (skipWs r2) with
            | .error e => .error e
            | .ok (v, r3) =>
              match skipWs r3 with
              | ',' :: r4 =>
                (parseMembers fuel (skipWs r4)).map fun p =>
                  ((String.mk k, v) :: p.1, p.2)
              | '}' :: r4 => .ok ([(String.mk k, v)], r4)
              | _ => .error "Expecting comma delimiter")
         | _ => .error "Expecting colon delimiter")
    | _ => .error "Expecting property name"
termination_by structural fuel => fuel
end

/-- The stream loop of `_load_json_stream`: decode a value at the current
offset, skip exactly one character past its end (`i = j + 1`), and continue
while input remains. -/
def loadAux : Nat → List Char → Except String (List Json)
  | _, [] => .ok []
  | 0, _ :: _ => .error "Fuel exhausted"
  | fuel + 1, cs =>
    match parseValue cs.length cs with
    | .error e => .error e
    | .ok (v, r) => (loadAux fuel (r.drop 1)).map fun vs => v :: vs

/-- `_load_json_stream` on a string. -/
def loadJsonStream (s : String) : Except String (List Json) :=
  loadAux s.data.length s.data

/-! Canonical renderer for JSON values, used to state the amended stream
round-trip property: integers in decimal, strings with minimal escaping, no
inter-token whitespace. -/

/-- Hexadecimal digit character (lowercase). -/
def hexDigit (n : Nat) : Char := if n < 10 then Char.ofNat (48 + n) else Char.ofNat (87 + n)

/-- Escape one string character: quote and backslash get a backslash escape,
control characters a `\u00XX` escape, and everything else is verbatim. -/
def escapeChar (c : Char) : List Char :=
  if c = '"' then ['\\', '"']
  else if c = '\\' then ['\\', '\\']
  else if c.toNat < 32 then ['\\', 'u', '0', '0', hexDigit (c.toNat / 16), hexDigit (c.toNat % 16)]
  else [c]

/-- Render a string body (no quotes). -/
def renderStrBody (cs : List Char) : List Char := (cs.map escapeChar).flatten

/-- Decimal digits of `n`, most significant first (`fuel ≥ n` suffices). -/
def natDigitsAux : Nat → Nat → List Char
  | 0, _ => []
  | fuel + 1, n =>
    if n = 0 then [] else natDigitsAux fuel (n / 10) ++ [Char.ofNat (48 + n % 10)]

/-- Decimal rendering of a natural number. -/
def natRender (n : Nat) : List Char := if n = 0 then ['0'] else natDigitsAux n n

/-- Decimal rendering of an integer. -/
def intRender (n : Int) : List Char :=
  if n < 0 then '-' :: natRender n.natAbs else natRender n.natAbs

mutual
/-- Canonical rendering of a JSON value. -/
def render : Json → List Char
  | .null => 'n' :: 'u' :: 'l' :: 'l' :: []
  | .bool true => 't' :: 'r' :: 'u' :: 'e' :: []
  | .bool false => 'f' :: 'a' :: 'l' :: 's' :: 'e' :: []
  | .num n => intRender n
  | .str s => '"' :: (renderStrBody s.data ++ ['"'])
  | .arr es => '[' :: (renderElems es ++ [']'])
  | .obj fs => '{' :: (renderMembers fs ++ ['}'])
termination_by v => sizeOf v

/-- Canonical rendering of comma-separated array elements. -/
def renderElems : List Json → List Char
  | [] => []
  | [v] => render v
  | v :: vs => render v ++ ',' :: renderElems vs
termination_by es => sizeOf es

/-- Canonical rendering of one `key:value` member. -/
def renderKV (k : String) (v : Json) : List Char :=
  '"' :: (renderStrBody k.data ++ '"' :: ':' :: render v)
termination_by sizeOf v + 1

/-- Canonical rendering of comma-separated object members. -/
def renderMembers : List (String × Json) → List Char
  | [] => []
  | [(k, v)] => renderKV k v
  | (k, v) :: fs => renderKV k v ++ ',' :: renderMembers fs
termination_by fs => sizeOf fs
end

/-- The newline-terminated stream rendering of a list of JSON values. -/
def renderStream (vs : List Json) : List Char :=
  (vs.map fun v => render v ++ ['\n']).flatten

mutual
/-- Fuel needed by `parseValue` for a value. -/
def sizeV : Json → Nat
  | .null => 1
  | .bool _ => 1
  | .num _ => 1
  | .str _ => 1
  | .arr es => sizeE es + 1
  | .obj fs => sizeM fs + 1
termination_by v => sizeOf v

/-- Fuel needed by `parseElems` for an element list. -/
def sizeE : List Json → Nat
  | [] => 0
  | v :: vs => max (sizeV v) (sizeE vs) + 1
termination_by es => sizeOf es

/-- Fuel needed by `parseMembers` for a member list. -/
def sizeM : List (String × Json) → Nat
  | [] => 0
  | (_, v) :: fs => max (sizeV v) (sizeM fs) + 1
termination_by fs => sizeOf fs
end

/-! Round-trip lemmas: parsing a canonically rendered value returns the value
and the untouched remainder. -/

theorem hexVal_hexDigit : ∀ x : Nat, x < 16 → hexVal (hexDigit x) = some x := by decide

theorem renderStrBody_cons (c : Char) (cs : List Char) :
    renderStrBody (c :: cs) = escapeChar c ++ renderStrBody cs := by
  simp [renderStrBody]

theorem psb_close (fuel : Nat) (cs : List Char) :
    parseStringBody (fuel + 1) ('"' :: cs) = .ok ([], cs) := rfl

theorem psb_quote (fuel : Nat) (cs : List Char) :
    parseStringBody (fuel + 1) ('\\' :: '"' :: cs) =
      (parseStringBody fuel cs).map fun r => ('"' :: r.1, r.2) := rfl

theorem psb_backslash (fuel : Nat) (cs : List Char) :
    parseStringBody (fuel + 1) ('\\' :: '\\' :: cs) =
      (parseStringBody fuel cs).map fun r => ('\\' :: r.1, r.2) := rfl

theorem psb_unicode (fuel : Nat) (h1 h2 h3 h4 : Char) (cs : List Char) :
    parseStringBody (fuel + 1) ('\\' :: 'u' :: h1 :: h2 :: h3 :: h4 :: cs) =
      (match hexVal h1, hexVal h2, hexVal h3, hexVal h4 with
       | some a, some b, some x, some d =>
         (parseStringBody fuel cs).map fun r =>
           (Char.ofNat (((a * 16 + b) * 16 + x) * 16 + d) :: r.1, r.2)
       | _, _, _, _ => .error "Invalid unicode escape") := rfl

theorem psb_plain (fuel : Nat) (c : Char) (cs : List Char) (h1 : c ≠ '"')
    (h2 : c ≠ '\\') (h3 : ¬ c.toNat < 32) :
    parseStringBody (fuel + 1) (c :: cs) =
      (parseStringBody fuel cs).map fun r => (c :: r.1, r.2) := by
  simp only [parseStringBody]
  rw [if_neg h1, if_neg h2, if_neg h3]

theorem escapeChar_ctrl (c : Char) (h3 : c.toNat < 32) :
    escapeChar c =
      ['\\', 'u', '0', '0', hexDigit (c.toNat / 16), hexDigit (c.toNat % 16)] := by
  have h1 : c ≠ '"' := by
    intro h
    subst h
    exact absurd h3 (by decide)
  have h2 : c ≠ '\\' := by
    intro h
    subst h
    exact absurd h3 (by decide)
  unfold escapeChar
  rw [if_neg h1, if_neg h2, if_pos h3]

theorem escapeChar_plain (c : Char) (h1 : c ≠ '"') (h2 : c ≠ '\\')
    (h3 : ¬ c.toNat < 32) : escapeChar c = [c] := by
  unfold escapeChar
  rw [if_neg h1, if_neg h2, if_neg h3]

theorem parseStringBody_rt : ∀ (cs : List Char) (fuel : Nat) (rest : List Char),
    (renderStrBody cs).length + 1 ≤ fuel →
    parseStringBody fuel (renderStrBody cs ++ '"' :: rest) = .ok (cs, rest)
  | [], fuel, rest, h => by
    cases fuel with
    | zero => exact absurd h (by omega)
    | succ f => rw [show renderStrBody [] = [] from rfl, List.nil_append, psb_close]
  | c :: cs, fuel, rest, h => by
    rw [renderStrBody_cons] at h ⊢
    rw [List.length_append] at h
    rw [List.append_assoc]
    cases fuel with
    | zero => exact absurd h (by omega)
    | succ f =>
      by_cases h1 : c = '"'
      · subst h1
        rw [show escapeChar '"' = ['\\', '"'] from rfl] at h ⊢
        simp only [List.length_cons, List.length_nil] at h
        show parseStringBody (f + 1) ('\\' :: '"' :: (renderStrBody cs ++ '"' :: rest)) = _
        rw [psb_quote, parseStringBody_rt cs f rest (by omega)]
        rfl
      · by_cases h2 : c = '\\'
        · subst h2
          rw [show escapeChar '\\' = ['\\', '\\'] from rfl] at h ⊢
          simp only [List.length_cons, List.length_nil] at h
          show parseStringBody (f + 1) ('\\' :: '\\' :: (renderStrBody cs ++ '"' :: rest)) = _
          rw [psb_backslash, parseStringBody_rt cs f rest (by omega)]
          rfl
        · by_cases h3 : c.toNat < 32
          · rw [escapeChar_ctrl c h3] at h ⊢
            simp only [List.length_cons, List.length_nil] at h
            show parseStringBody (f + 1) ('\\' :: 'u' :: '0' :: '0' :: hexDigit (c.toNat / 16) ::
              hexDigit (c.toNat % 16) :: (renderStrBody cs ++ '"' :: rest)) = _
            rw [psb_unicode]
            rw [show hexVal '0' = some 0 from rfl]
            rw [hexVal_hexDigit (c.toNat / 16) (by omega),
              hexVal_hexDigit (c.toNat % 16) (by omega)]
            show (parseStringBody f (renderStrBody cs ++ '"' :: rest)).map
              (fun r => (Char.ofNat (((0 * 16 + 0) * 16 + c.toNat / 16) * 16 + c.toNat % 16) ::
                r.1, r.2)) = _
            rw [show ((0 * 16 + 0) * 16 + c.toNat / 16) * 16 + c.toNat % 16 = c.toNat by omega]
            rw [Char.ofNat_toNat, parseStringBody_rt cs f rest (by omega)]
            rfl
          · rw [escapeChar_plain c h1 h2 h3] at h ⊢
            simp only [List.length_cons, List.length_nil] at h
            show parseStringBody (f + 1) (c :: (renderStrBody cs ++ '"' :: rest)) = _
            rw [psb_plain f c _ h1 h2 h3, parseStringBody_rt cs f rest (by omega)]
            rfl

/-- The next character, if any, is not a digit (so it cannot extend a
numeral). -/
def noDigitHead : List Char → Prop
  | [] => True
  | c :: _ => isDigitC c = false

/-- Digit-run value accumulator, as a fold. -/
def valFold (acc : Nat) (ds : List Char) : Nat :=
  ds.foldl (fun a c => a * 10 + (c.toNat - 48)) acc

/-- Every character of the list is a digit. -/
def allDigits (ds : List Char) : Prop := ∀ c ∈ ds, isDigitC c = true

theorem isDigitC_elim (c : Char) (h : isDigitC c = true) :
    c = '0' ∨ c = '1' ∨ c = '2' ∨ c = '3' ∨ c = '4' ∨
    c = '5' ∨ c = '6' ∨ c = '7' ∨ c = '8' ∨ c = '9' := by
  unfold isDigitC at h
  simp only [Bool.or_eq_true, decide_eq_true_eq] at h
  tauto

theorem digit_facts (c : Char) (h : isDigitC c = true) :
    c ≠ '{' ∧ c ≠ '[' ∧ c ≠ '"' ∧ c ≠ 't' ∧ c ≠ 'f' ∧ c ≠ 'n' ∧ c ≠ '-' ∧
    isJsonWs c = false ∧ c ≠ ']' ∧ c ≠ '}' ∧ c ≠ ',' := by
  rcases isDigitC_elim c h with rfl | rfl | rfl | rfl | rfl | rfl | rfl | rfl | rfl | rfl <;>
    exact (by decide)

theorem digitChar_isDigit : ∀ k : Nat, k < 10 → isDigitC (Char.ofNat (48 + k)) = true := by
  decide

theorem scanDigits_spec : ∀ (ds rest : List Char) (acc : Nat),
    allDigits ds → noDigitHead rest →
    scanDigits (ds ++ rest) acc = (valFold acc ds, rest)
  | [], rest, acc, _, hr => by
    cases rest with
    | nil => rfl
    | cons c cs =>
      have hc : isDigitC c = false := hr
      simp only [List.nil_append, scanDigits]
      rw [hc]
      rfl
  | d :: ds, rest, acc, hd, hr => by
    have hdd := hd d (List.mem_cons_self _ _)
    simp only [List.cons_append, scanDigits]
    rw [hdd]
    simp only [if_true]
    rw [show List.append ds rest = ds ++ rest from rfl]
    rw [scanDigits_spec ds rest _ (fun x hx => hd x (List.mem_cons_of_mem _ hx)) hr]
    rfl

theorem natDigitsAux_zero (fuel : Nat) : natDigitsAux fuel 0 = [] := by
  cases fuel <;> simp [natDigitsAux]

theorem natDigits_spec : ∀ (fuel n : Nat), 0 < n → n ≤ fuel →
    ∃ d ds, natDigitsAux fuel n = d :: ds ∧ d ≠ '0' ∧ allDigits (d :: ds)
  | 0, n, hn, hf => absurd hf (by omega)
  | fuel + 1, n, hn, hf => by
    rw [show natDigitsAux (fuel + 1) n =
        natDigitsAux fuel (n / 10) ++ [Char.ofNat (48 + n % 10)] by
      rw [natDigitsAux, if_neg (by omega)]]
    by_cases hsmall : n < 10
    · rw [show n / 10 = 0 by omega, natDigitsAux_zero, List.nil_append]
      refine ⟨Char.ofNat (48 + n % 10), [], rfl, ?_, ?_⟩
      · intro hc
        have ht := congrArg Char.toNat hc
        rw [char_toNat_ofNat_valid (48 + n % 10) (by omega)] at ht
        have h0 : ('0').toNat = 48 := rfl
        omega
      · intro x hx
        rcases List.mem_cons.mp hx with rfl | hx
        · exact digitChar_isDigit (n % 10) (by omega)
        · simp at hx
    · rcases natDigits_spec fuel (n / 10) (by omega) (by omega) with ⟨d, ds, heq, hne, hall⟩
      rw [heq]
      refine ⟨d, ds ++ [Char.ofNat (48 + n % 10)], rfl, hne, ?_⟩
      intro x hx
      rcases List.mem_cons.mp hx with rfl | hx
      · exact hall x (List.mem_cons_self _ _)
      · rcases List.mem_append.mp hx with hx | hx
        · exact hall x (List.mem_cons_of_mem _ hx)
        · rcases List.mem_singleton.mp hx with rfl
          exact digitChar_isDigit (n % 10) (by omega)

theorem valFold_natDigitsAux : ∀ (fuel n acc : Nat), 0 < n → n ≤ fuel →
    valFold acc (natDigitsAux fuel n) =
      acc * 10 ^ (natDigitsAux fuel n).length + n
  | 0, n, acc, hn, hf => absurd hf (by omega)
  | fuel + 1, n, acc, hn, hf => by
    rw [show natDigitsAux (fuel + 1) n =
        natDigitsAux fuel (n / 10) ++ [Char.ofNat (48 + n % 10)] by
      rw [natDigitsAux, if_neg (by omega)]]
    have htd : (Char.ofNat (48 + n % 10)).toNat = 48 + n % 10 :=
      char_toNat_ofNat_valid _ (by omega)
    by_cases hsmall : n < 10
    · rw [show n / 10 = 0 by omega, natDigitsAux_zero, List.nil_append]
      show acc * 10 + ((Char.ofNat (48 + n % 10)).toNat - 48) = _
      rw [htd]
      simp only [List.length_cons, List.length_nil, pow_one, Nat.zero_add]
      omega
    · have hrec := valFold_natDigitsAux fuel (n / 10) acc (by omega) (by omega)
      rw [valFold, List.foldl_append]
      rw [show List.foldl (fun a c => a * 10 + (c.toNat - 48)) acc
          (natDigitsAux fuel (n / 10)) = valFold acc (natDigitsAux fuel (n / 10)) from rfl]
      rw [hrec]
      show (acc * 10 ^ (natDigitsAux fuel (n / 10)).length + n / 10) * 10 +
        ((Char.ofNat (48 + n % 10)).toNat - 48) = _
      rw [htd, List.length_append, List.length_cons, List.length_nil]
      have hdm : n / 10 * 10 + n % 10 = n := by omega
      have hpow : 10 ^ ((natDigitsAux fuel (n / 10)).length + (0 + 1)) =
          10 ^ (natDigitsAux fuel (n / 10)).length * 10 := by
        rw [show (natDigitsAux fuel (n / 10)).length + (0 + 1) =
            (natDigitsAux fuel (n / 10)).length + 1 by omega, pow_succ]
      rw [hpow]
      have harith : 48 + n % 10 - 48 = n % 10 := by omega
      rw [harith]
      ring_nf
      omega

theorem parseUnsignedNum_rt (n : Nat) (rest : List Char) (hr : noDigitHead rest) :
    parseUnsignedNum (natRender n ++ rest) = .ok (n, rest) := by
  by_cases h0 : n = 0
  · subst h0
    rw [show natRender 0 = ['0'] from rfl]
    rfl
  · have hn : 0 < n := Nat.pos_of_ne_zero h0
    rcases natDigits_spec n n hn (le_refl n) with ⟨d, ds, heq, hne, hall⟩
    rw [show natRender n = natDigitsAux n n by rw [natRender, if_neg h0], heq,
      List.cons_append]
    have hd : isDigitC d = true := hall d (List.mem_cons_self _ _)
    simp only [parseUnsignedNum]
    rw [if_neg hne, if_pos hd]
    rw [scanDigits_spec ds rest _ (fun x hx => hall x (List.mem_cons_of_mem _ hx)) hr]
    have hv := valFold_natDigitsAux n n 0 hn (le_refl n)
    rw [heq] at hv
    have hv2 : valFold 0 (d :: ds) = n := by
      rw [hv]
      simp
    have hv3 : valFold (d.toNat - 48) ds = n := by
      rw [← hv2]
      show valFold (d.toNat - 48) ds = List.foldl _ 0 (d :: ds)
      rw [List.foldl_cons]
      show valFold (d.toNat - 48) ds = valFold (0 * 10 + (d.toNat - 48)) ds
      congr 1
      omega
    rw [hv3]

theorem parseNumber_rt (n : Int) (rest : List Char) (hr : noDigitHead rest) :
    parseNumber (intRender n ++ rest) = .ok (.num n, rest) := by
  by_cases hneg : n < 0
  · rw [show intRender n = '-' :: natRender n.natAbs by rw [intRender, if_pos hneg],
      List.cons_append]
    show (parseUnsignedNum (natRender n.natAbs ++ rest)).map
      (fun r => (Json.num (-(r.1 : Int)), r.2)) = _
    rw [parseUnsignedNum_rt _ _ hr]
    have hia : -((n.natAbs : Int)) = n := by omega
    show Except.ok (Json.num (-((n.natAbs : Int))), rest) = Except.ok (Json.num n, rest)
    rw [hia]
  · rw [show intRender n = natRender n.natAbs by rw [intRender, if_neg hneg]]
    by_cases h0 : n = 0
    · subst h0
      rfl
    · have hn : 0 < n.natAbs := by omega
      rcases natDigits_spec n.natAbs n.natAbs hn (le_refl _) with ⟨d, ds, heq, hne, hall⟩
      have hd : isDigitC d = true := hall d (List.mem_cons_self _ _)
      have hdm : d ≠ '-' := (digit_facts d hd).2.2.2.2.2.2.1
      have hnr : natRender n.natAbs = natDigitsAux n.natAbs n.natAbs := by
        rw [natRender, if_neg (by omega)]
      rw [hnr, heq, List.cons_append]
      simp only [parseNumber]
      rw [if_neg hdm]
      rw [← List.cons_append, ← heq, ← hnr]
      rw [parseUnsignedNum_rt _ _ hr]
      have hia : ((n.natAbs : Int)) = n := by omega
      show Except.ok (Json.num ((n.natAbs : Int)), rest) = Except.ok (Json.num n, rest)
      rw [hia]

theorem skipWs_not_ws (c : Char) (cs : List Char) (h : isJsonWs c = false) :
    skipWs (c :: cs) = c :: cs := by
  simp [skipWs, h]

theorem render_head (v : Json) : ∃ c cs, render v = c :: cs ∧
    isJsonWs c = false ∧ c ≠ ']' ∧ c ≠ '}' := by
  cases v with
  | null => exact ⟨'n', ['u', 'l', 'l'], by simp [render], by decide, by decide, by decide⟩
  | bool b =>
    cases b with
    | true => exact ⟨'t', ['r', 'u', 'e'], by simp [render], by decide, by decide, by decide⟩
    | false =>
      exact ⟨'f', ['a', 'l', 's', 'e'], by simp [render], by decide, by decide, by decide⟩
  | str s =>
    exact ⟨'"', renderStrBody s.data ++ ['"'], by simp [render], by decide, by decide,
      by decide⟩
  | arr es =>
    exact ⟨'[', renderElems es ++ [']'], by simp [render], by decide, by decide, by decide⟩
  | obj fs =>
    exact ⟨'{', renderMembers fs ++ ['}'], by simp [render], by decide, by decide, by decide⟩
  | num n =>
    by_cases hneg : n < 0
    · exact ⟨'-', natRender n.natAbs, by rw [show render (Json.num n) = intRender n by
        simp [render], intRender, if_pos hneg], by decide, by decide, by decide⟩
    · by_cases h0 : n = 0
      · subst h0
        exact ⟨'0', [], by
          rw [show render (Json.num 0) = intRender 0 by simp [render]]
          rfl, by decide, by decide, by decide⟩
      · have hn : 0 < n.natAbs := by omega
        rcases natDigits_spec n.natAbs n.natAbs hn (le_refl _) with ⟨d, ds, heq, _, hall⟩
        have hd : isDigitC d = true := hall d (List.mem_cons_self _ _)
        obtain ⟨_, _, _, _, _, _, _, hw, hcb, hcc, _⟩ := digit_facts d hd
        exact ⟨d, ds, by rw [show render (Json.num n) = intRender n by simp [render],
          intRender, if_neg hneg, natRender, if_neg (by omega), heq], hw, hcb, hcc⟩

theorem renderElems_head (es : List Json) (hne : es ≠ []) : ∃ c cs,
    renderElems es = c :: cs ∧ isJsonWs c = false ∧ c ≠ ']' ∧ c ≠ '}' := by
  cases es with
  | nil => exact absurd rfl hne
  | cons v vs =>
    rcases render_head v with ⟨c, cs, hh, hw, h1, h2⟩
    cases vs with
    | nil => exact ⟨c, cs, by rw [show renderElems [v] = render v by simp [renderElems], hh],
        hw, h1, h2⟩
    | cons w ws =>
      exact ⟨c, cs ++ ',' :: renderElems (w :: ws), by
        rw [show renderElems (v :: w :: ws) = render v ++ ',' :: renderElems (w :: ws) by
          simp [renderElems], hh, List.cons_append], hw, h1, h2⟩

theorem renderMembers_head (fs : List (String × Json)) (hne : fs ≠ []) : ∃ cs,
    renderMembers fs = '"' :: cs := by
  cases fs with
  | nil => exact absurd rfl hne
  | cons kv fs' =>
    obtain ⟨k, v⟩ := kv
    cases fs' with
    | nil =>
      exact ⟨_, by rw [show renderMembers [(k, v)] = renderKV k v by simp [renderMembers],
        show renderKV k v = '"' :: (renderStrBody k.data ++ '"' :: ':' :: render v) by
          simp [renderKV]]⟩
    | cons kv2 fs2 =>
      exact ⟨_, by
        rw [show renderMembers ((k, v) :: kv2 :: fs2) =
            renderKV k v ++ ',' :: renderMembers (kv2 :: fs2) by simp [renderMembers],
          show renderKV k v = '"' :: (renderStrBody k.data ++ '"' :: ':' :: render v) by
            simp [renderKV], List.cons_append]⟩

theorem skipWs_render (v : Json) (X : List Char) :
    skipWs (render v ++ X) = render v ++ X := by
  rcases render_head v with ⟨c, cs, hh, hw, _, _⟩
  rw [hh, List.cons_append]
  exact skipWs_not_ws c _ hw

theorem skipWs_renderElems (es : List Json) (hne : es ≠ []) (X : List Char) :
    skipWs (renderElems es ++ X) = renderElems es ++ X := by
  rcases renderElems_head es hne with ⟨c, cs, hh, hw, _, _⟩
  rw [hh, List.cons_append]
  exact skipWs_not_ws c _ hw

theorem skipWs_renderMembers (fs : List (String × Json)) (hne : fs ≠ []) (X : List Char) :
    skipWs (renderMembers fs ++ X) = renderMembers fs ++ X := by
  rcases renderMembers_head fs hne with ⟨cs, hh⟩
  rw [hh, List.cons_append]
  exact skipWs_not_ws '"' _ (by decide)

theorem sizeV_pos (v : Json) : 1 ≤ sizeV v := by
  cases v <;> simp [sizeV]

theorem sizeE_pos (es : List Json) (hne : es ≠ []) : 1 ≤ sizeE es := by
  cases es with
  | nil => exact absurd rfl hne
  | cons v vs => simp [sizeE]

theorem sizeM_pos (fs : List (String × Json)) (hne : fs ≠ []) : 1 ≤ sizeM fs := by
  cases fs with
  | nil => exact absurd rfl hne
  | cons kv fs' =>
    obtain ⟨k, v⟩ := kv
    simp [sizeM]

theorem parseValue_bracket (fuel : Nat) (X : List Char) :
    parseValue (fuel + 1) ('[' :: X) =
      (if (skipWs X).head? = some ']' then .ok (.arr [], (skipWs X).tail)
       else (parseElems fuel (skipWs X)).map fun p => (.arr p.1, p.2)) := rfl

theorem parseValue_brace (fuel : Nat) (X : List Char) :
    parseValue (fuel + 1) ('{' :: X) =
      (if (skipWs X).head? = some '}' then .ok (.obj [], (skipWs X).tail)
       else (parseMembers fuel (skipWs X)).map fun p => (.obj p.1, p.2)) := rfl

theorem parseValue_strlit (fuel : Nat) (X : List Char) :
    parseValue (fuel + 1) ('"' :: X) =
      (parseStringBody (X.length + 1) X).map fun p => (.str (String.mk p.1), p.2) := rfl

theorem parseElems_step (fuel : Nat) (cs : List Char) :
    parseElems (fuel + 1) cs =
      (match parseValue fuel cs with
       | .error e => .error e
       | .ok (v, r) =>
         match skipWs r with
         | ',' :: r2 => (parseElems fuel (skipWs r2)).map fun p => (v :: p.1, p.2)
         | ']' :: r2 => .ok ([v], r2)
         | _ => .error "Expecting comma delimiter") := rfl

theorem parseMembers_quote (fuel : Nat) (rest : List Char) :
    parseMembers (fuel + 1) ('"' :: rest) =
      (match parseStringBody (rest.length + 1) rest with
       | .error e => .error e
       | .ok (k, r) =>
         match skipWs r with
         | ':' :: r2 =>
           (match parseValue fuel (skipWs r2) with
            | .error e => .error e
            | .ok (v, r3) =>
              match skipWs r3 with
              | ',' :: r4 =>
                (parseMembers fuel (skipWs r4)).map fun p => ((String.mk k, v) :: p.1, p.2)
              | '}' :: r4 => .ok ([(String.mk k, v)], r4)
              | _ => .error "Expecting comma delimiter")
         | _ => .error "Expecting colon delimiter") := rfl

/-- Main round trip: with sufficient fuel, parsing a rendered value (or
element/member list) consumes exactly the rendered text. -/
theorem rt_all : ∀ fuel : Nat,
    (∀ (v : Json) (rest : List Char), sizeV v ≤ fuel → noDigitHead rest →
      parseValue fuel (render v ++ rest) = .ok (v, rest)) ∧
    (∀ (es : List Json) (rest : List Char), es ≠ [] → sizeE es ≤ fuel →
      parseElems fuel (renderElems es ++ ']' :: rest) = .ok (es, rest)) ∧
    (∀ (fs : List (String × Json)) (rest : List Char), fs ≠ [] → sizeM fs ≤ fuel →
      parseMembers fuel (renderMembers fs ++ '}' :: rest) = .ok (fs, rest)) := by
  intro fuel
  induction fuel with
  | zero =>
    refine ⟨?_, ?_, ?_⟩
    · intro v rest hs _
      exact absurd hs (by have := sizeV_pos v; omega)
    · intro es rest hne hs
      exact absurd hs (by have := sizeE_pos es hne; omega)
    · intro fs rest hne hs
      exact absurd hs (by have := sizeM_pos fs hne; omega)
  | succ fuel ih =>
    obtain ⟨ihV, ihE, ihM⟩ := ih
    refine ⟨?_, ?_, ?_⟩
    · intro v rest hs hr
      cases v with
      | null =>
        rw [show render Json.null = 'n' :: 'u' :: 'l' :: 'l' :: [] by simp [render]]
        rfl
      | bool b =>
        cases b with
        | true =>
          rw [show render (Json.bool true) = 't' :: 'r' :: 'u' :: 'e' :: [] by simp [render]]
          rfl
        | false =>
          rw [show render (Json.bool false) = 'f' :: 'a' :: 'l' :: 's' :: 'e' :: [] by
            simp [render]]
          rfl
      | num n =>
        rw [show render (Json.num n) = intRender n by simp [render]]
        by_cases hneg : n < 0
        · rw [show intRender n = '-' :: natRender n.natAbs by rw [intRender, if_pos hneg],
            List.cons_append]
          show parseNumber ('-' :: (natRender n.natAbs ++ rest)) = _
          rw [← List.cons_append,
            show '-' :: natRender n.natAbs = intRender n by rw [intRender, if_pos hneg]]
          exact parseNumber_rt n rest hr
        · by_cases h0 : n = 0
          · subst h0
            rw [show intRender 0 = ['0'] from rfl]
            rfl
          · have hn : 0 < n.natAbs := by omega
            rcases natDigits_spec n.natAbs n.natAbs hn (le_refl _) with ⟨d, ds, heq, hne0, hall⟩
            have hd : isDigitC d = true := hall d (List.mem_cons_self _ _)
            obtain ⟨hb1, hb2, hb3, hb4, hb5, hb6, hb7, _, _, _, _⟩ := digit_facts d hd
            have hir : intRender n = d :: ds := by
              rw [intRender, if_neg hneg, natRender, if_neg (by omega), heq]
            rw [hir, List.cons_append]
            simp only [parseValue]
            rw [if_neg hb1, if_neg hb2, if_neg hb3, if_neg hb4, if_neg hb5, if_neg hb6,
              if_neg hb7, if_pos hd]
            rw [← List.cons_append, ← hir]
            exact parseNumber_rt n rest hr
      | str s =>
        rw [show render (Json.str s) = '"' :: (renderStrBody s.data ++ ['"']) by simp [render],
          List.cons_append, parseValue_strlit, List.append_assoc, List.singleton_append]
        rw [parseStringBody_rt s.data _ rest
          (by rw [List.length_append, List.length_cons]; omega)]
        rfl
      | arr es =>
        cases es with
        | nil =>
          rw [show render (Json.arr []) = '[' :: ']' :: [] by
            rw [show render (Json.arr []) = '[' :: (renderElems [] ++ [']']) by simp [render],
              show renderElems ([] : List Json) = [] by simp [renderElems]]
            rfl]
          rfl
        | cons v vs =>
          have hsz : sizeE (v :: vs) ≤ fuel := by
            have he : sizeV (Json.arr (v :: vs)) = sizeE (v :: vs) + 1 := by simp [sizeV]
            omega
          rw [show render (Json.arr (v :: vs)) = '[' :: (renderElems (v :: vs) ++ [']']) by
            simp [render], List.cons_append, parseValue_bracket, List.append_assoc,
            List.singleton_append]
          rw [skipWs_renderElems (v :: vs) (by simp) (']' :: rest)]
          rcases renderElems_head (v :: vs) (by simp) with ⟨c, cs, hh, _, hc1, _⟩
          rw [if_neg (by rw [hh, List.cons_append]; simp [hc1])]
          rw [ihE (v :: vs) rest (by simp) hsz]
          rfl
      | obj fs =>
        cases fs with
        | nil =>
          rw [show render (Json.obj []) = '{' :: '}' :: [] by
            rw [show render (Json.obj []) = '{' :: (renderMembers [] ++ ['}']) by simp [render],
              show renderMembers ([] : List (String × Json)) = [] by simp [renderMembers]]
            rfl]
          rfl
        | cons kv fs' =>
          have hsz : sizeM (kv :: fs') ≤ fuel := by
            have he : sizeV (Json.obj (kv :: fs')) = sizeM (kv :: fs') + 1 := by simp [sizeV]
            omega
          rw [show render (Json.obj (kv :: fs')) = '{' :: (renderMembers (kv :: fs') ++ ['}']) by
            simp [render], List.cons_append, parseValue_brace, List.append_assoc,
            List.singleton_append]
          rw [skipWs_renderMembers (kv :: fs') (by simp) ('}' :: rest)]
          rcases renderMembers_head (kv :: fs') (by simp) with ⟨cs, hh⟩
          rw [if_neg (by rw [hh, List.cons_append]; simp)]
          rw [ihM (kv :: fs') rest (by simp) hsz]
          rfl
    · intro es rest hne hsz
      cases es with
      | nil => exact absurd rfl hne
      | cons v vs =>
        have hse : sizeE (v :: vs) = max (sizeV v) (sizeE vs) + 1 := by simp [sizeE]
        cases vs with
        | nil =>
          rw [show renderElems [v] = render v by simp [renderElems], parseElems_step]
          rw [ihV v (']' :: rest) (by omega) (by exact rfl)]
          rfl
        | cons w ws =>
          rw [show renderElems (v :: w :: ws) = render v ++ ',' :: renderElems (w :: ws) by
            simp [renderElems], List.append_assoc, List.cons_append, parseElems_step]
          rw [ihV v (',' :: (renderElems (w :: ws) ++ ']' :: rest))
            (by omega) (by exact rfl)]
          show (parseElems fuel (skipWs (renderElems (w :: ws) ++ ']' :: rest))).map
            (fun p => (v :: p.1, p.2)) = _
          rw [skipWs_renderElems (w :: ws) (by simp) (']' :: rest)]
          rw [ihE (w :: ws) rest (by simp) (by omega)]
          rfl
    · intro fs rest hne hsz
      cases fs with
      | nil => exact absurd rfl hne
      | cons kv fs' =>
        obtain ⟨k, v⟩ := kv
        have hsm : sizeM ((k, v) :: fs') = max (sizeV v) (sizeM fs') + 1 := by simp [sizeM]
        have hkv : renderKV k v = '"' :: (renderStrBody k.data ++ '"' :: ':' :: render v) := by
          simp [renderKV]
        cases fs' with
        | nil =>
          rw [show renderMembers [(k, v)] = renderKV k v by simp [renderMembers], hkv,
            List.cons_append, parseMembers_quote]
          rw [List.append_assoc, List.cons_append, List.cons_append]
          rw [parseStringBody_rt k.data _ (':' :: (render v ++ '}' :: rest))
            (by rw [List.length_append, List.length_cons]; omega)]
          show (match skipWs (':' :: (render v ++ '}' :: rest)) with
            | ':' :: r2 =>
              (match parseValue fuel (skipWs r2) with
               | .error e => .error e
               | .ok (v2, r3) =>
                 match skipWs r3 with
                 | ',' :: r4 =>
                   (parseMembers fuel (skipWs r4)).map fun p =>
                     ((String.mk k.data, v2) :: p.1, p.2)
                 | '}' :: r4 => .ok ([(String.mk k.data, v2)], r4)
                 | _ => .error "Expecting comma delimiter")
            | _ => .error "Expecting colon delimiter") = Except.ok ([(k, v)], rest)
          show (match parseValue fuel (skipWs (render v ++ '}' :: rest)) with
            | .error e => .error e
            | .ok (v2, r3) =>
              match skipWs r3 with
              | ',' :: r4 =>
                (parseMembers fuel (skipWs r4)).map fun p =>
                  ((String.mk k.data, v2) :: p.1, p.2)
              | '}' :: r4 => .ok ([(String.mk k.data, v2)], r4)
              | _ => .error "Expecting comma delimiter") = Except.ok ([(k, v)], rest)
          rw [skipWs_render v ('}' :: rest)]
          rw [ihV v ('}' :: rest) (by omega) (by exact rfl)]
          rfl
        | cons kv2 fs2 =>
          rw [show renderMembers ((k, v) :: kv2 :: fs2) =
              renderKV k v ++ ',' :: renderMembers (kv2 :: fs2) by simp [renderMembers], hkv]
          simp only [List.cons_append, List.append_assoc]
          rw [parseMembers_quote]
          rw [parseStringBody_rt k.data _
            (':' :: (render v ++ ',' :: (renderMembers (kv2 :: fs2) ++ '}' :: rest)))
            (by rw [List.length_append, List.length_cons]; omega)]
          show (match parseValue fuel
              (skipWs (render v ++ ',' :: (renderMembers (kv2 :: fs2) ++ '}' :: rest))) with
            | .error e => .error e
            | .ok (v2, r3) =>
              match skipWs r3 with
              | ',' :: r4 =>
                (parseMembers fuel (skipWs r4)).map fun p =>
                  ((String.mk k.data, v2) :: p.1, p.2)
              | '}' :: r4 => .ok ([(String.mk k.data, v2)], r4)
              | _ => .error "Expecting comma delimiter") = Except.ok ((k, v) :: kv2 :: fs2, rest)
          rw [skipWs_render v _]
          rw [ihV v (',' :: (renderMembers (kv2 :: fs2) ++ '}' :: rest)) (by omega)
            (by exact rfl)]
          show (parseMembers fuel (skipWs (renderMembers (kv2 :: fs2) ++ '}' :: rest))).map
            (fun p => ((String.mk k.data, v) :: p.1, p.2)) = _
          rw [skipWs_renderMembers (kv2 :: fs2) (by simp) ('}' :: rest)]
          rw [ihM (kv2 :: fs2) rest (by simp) (by omega)]
          rfl

mutual
theorem sizeV_le_render : ∀ v : Json, sizeV v ≤ (render v).length
  | .null => by simp [sizeV, render]
  | .bool b => by cases b <;> simp [sizeV, render]
  | .num n => by
    rcases render_head (Json.num n) with ⟨c, cs, hh, _, _, _⟩
    rw [hh]
    simp [sizeV]
  | .str s => by simp [sizeV, render]
  | .arr es => by
    have h := sizeE_le_renderElems es
    simp only [sizeV, render, List.length_cons, List.length_append, List.length_nil]
    omega
  | .obj fs => by
    have h := sizeM_le_renderMembers fs
    simp only [sizeV, render, List.length_cons, List.length_append, List.length_nil]
    omega
termination_by v => sizeOf v

theorem sizeE_le_renderElems : ∀ es : List Json, sizeE es ≤ (renderElems es).length + 1
  | [] => by simp [sizeE]
  | [v] => by
    have h := sizeV_le_render v
    simp only [sizeE, renderElems, sizeE.eq_1]
    omega
  | v :: w :: ws => by
    have h1 := sizeV_le_render v
    have h2 := sizeE_le_renderElems (w :: ws)
    rw [sizeE.eq_2, renderElems.eq_3]
    · simp only [List.length_append, List.length_cons]
      omega
    · intro hc
      exact List.noConfusion hc
termination_by es => sizeOf es

theorem sizeM_le_renderMembers : ∀ fs : List (String × Json),
    sizeM fs ≤ (renderMembers fs).length + 1
  | [] => by simp [sizeM]
  | [(k, v)] => by
    have h := sizeV_le_render v
    simp only [sizeM, renderMembers, renderKV, List.length_cons, List.length_append,
      sizeM.eq_1]
    omega
  | (k, v) :: kv2 :: fs2 => by
    have h1 := sizeV_le_render v
    have h2 := sizeM_le_renderMembers (kv2 :: fs2)
    rw [sizeM.eq_2, renderMembers.eq_3]
    · simp only [renderKV, List.length_cons, List.length_append]
      omega
    · intro hc
      exact List.noConfusion hc
termination_by fs => sizeOf fs
end

theorem renderStream_cons (v : Json) (vs : List Json) :
    renderStream (v :: vs) = render v ++ '\n' :: renderStream vs := by
  simp [renderStream]

theorem renderStream_length : ∀ vs : List Json, vs.length ≤ (renderStream vs).length
  | [] => by simp [renderStream]
  | v :: vs => by
    rcases render_head v with ⟨c, cs, hh, _, _, _⟩
    rw [renderStream_cons, hh]
    simp only [List.length_cons, List.cons_append, List.length_append]
    have h := renderStream_length vs
    omega

theorem loadAux_rt : ∀ (vs : List Json) (fuel : Nat), vs.length ≤ fuel →
    loadAux fuel (renderStream vs) = .ok vs
  | [], fuel, _ => by
    rw [show renderStream [] = [] by simp [renderStream]]
    cases fuel <;> rfl
  | v :: vs, fuel, h => by
    cases fuel with
    | zero => exact absurd h (by simp)
    | succ f =>
      have hrt := (rt_all ((render v ++ '\n' :: renderStream vs).length)).1 v
        ('\n' :: renderStream vs)
        (by rw [List.length_append]; have := sizeV_le_render v; omega)
        (by exact rfl)
      rcases render_head v with ⟨c, cs', hh, _, _, _⟩
      rw [renderStream_cons, hh, List.cons_append]
      show (match parseValue ((c :: (cs' ++ '\n' :: renderStream vs)).length)
          (c :: (cs' ++ '\n' :: renderStream vs)) with
        | .error e => .error e
        | .ok (v2, r) => (loadAux f (r.drop 1)).map fun vs2 => v2 :: vs2) =
        Except.ok (v :: vs)
      rw [← List.cons_append, ← hh, hrt]
      show (loadAux f (renderStream vs)).map (fun vs2 => v :: vs2) = _
      rw [loadAux_rt vs f (by simp only [List.length_cons] at h; omega)]
      rfl

/-! ## Claim C3: the JSON stream decoder -/

/-- C3 (counterexample): the claim says the decoder accepts JSON values
concatenated with no delimiter.  On the concrete input `"{}{}"` — two JSON
values with no delimiter — the stream loop skips one character past each
decoded value (`i = j + 1`), so it lands on the second `}` and fails instead
of yielding the two objects. -/
theorem c3_stream_counterexample :
    loadJsonStream "\x7b\x7d\x7b\x7d" = .error "Expecting value" ∧
    loadJsonStream "\x7b\x7d\x7b\x7d" ≠ .ok [Json.obj [], Json.obj []] := by
  refine ⟨rfl, ?_⟩
  intro h
  rw [show loadJsonStream "\x7b\x7d\x7b\x7d" = .error "Expecting value" from rfl] at h
  exact Except.noConfusion h

/-- C3 (amended): the decoder yields exactly the stream's values, decoded, in
file order, provided consecutive values are separated by exactly one
character and the final value is followed by at most one trailing character:
for every list of JSON values, decoding the stream of their canonical
renderings, each followed by a single newline, returns exactly that list. -/
theorem c3_stream_roundtrip (vs : List Json) :
    loadJsonStream (String.mk (renderStream vs)) = .ok vs := by
  unfold loadJsonStream
  rw [show (String.mk (renderStream vs)).data = renderStream vs from rfl]
  exact loadAux_rt vs (renderStream vs).length (renderStream_length vs)

end Godeps
